import Mathlib

/-!
# Verification of the component-insight analyzer core

A shallow embedding, in Lean, of the export-graph resolution, implementation
tracing, dependency-context assembly and batch orchestration of the
`component-insight` analyzer (`src/analyzer.ts`, concatenated into
`src/cli.ts` of the scanned tree, plus `src/parser.ts`), together with proofs
and refutations of the specification's testable properties.

Modelling conventions, used throughout:

* A scanned file (`FileInfo`) carries its absolute `path`, its raw text
  `content` (the analyzer applies JavaScript regular expressions to the raw
  text), and `stmts`, the sequence of Babel-traversal events relevant to the
  analyzer's AST visitors, in source order.  A statement that triggers two
  visitors in the real traversal (e.g. `export default function Foo(){}`
  fires both `ExportDefaultDeclaration` and the nested `FunctionDeclaration`)
  is represented by the two corresponding events in order.
* JavaScript strings are modelled by Lean `String`; the sources analyzed are
  ASCII/BMP text without surrogate pairs, so JS `length`/`substring` agree
  with character counts.  JS `\s` is modelled by the ASCII whitespace class
  and JS `\w` by `[A-Za-z0-9_]`, as in the regexes the analyzer uses.
* `Map` objects are modelled by association lists with `Map.set` semantics
  (`mapSet`): an existing key is overwritten in place, a new key is appended.
* Unbounded recursion in the source (the mutually recursive export-star
  expansion, which has no visited set) is given an explicit fuel parameter;
  exhausted fuel corresponds to the stack-overflow/`catch` path of the
  source, which yields an empty map.
-/

/-! ## Character classes and basic string helpers -/

/-- The JS `\s` class restricted to ASCII, as used by the analyzer's regexes. -/
def jsWS (c : Char) : Bool :=
  c = ' ' || c = '\t' || c = '\n' || c = '\r' || c = '\x0b' || c = '\x0c'

/-- The JS `\w` class: `[A-Za-z0-9_]`. -/
def isWordChar (c : Char) : Bool :=
  c.isAlpha || c.isDigit || c = '_'

/-- Characters that JS `.` (without the `s` flag) cannot match. -/
def dotBlocked (c : Char) : Bool :=
  c = '\n' || c = '\r'

/-- Lower-case a character list (ASCII), for the `i` regex flag. -/
def lcList (cs : List Char) : List Char := cs.map Char.toLower

/-- `strStartsWith s t` : `t.data` is a prefix of `s.data` (JS `startsWith`). -/
def strStartsWith (s t : String) : Bool := t.data.isPrefixOf s.data

/-- `strEndsWith s t` : `t.data` is a suffix of `s.data` (JS `endsWith`). -/
def strEndsWith (s t : String) : Bool := t.data.isSuffixOf s.data

/-- Case-insensitive `endsWith`, for regexes carrying the `i` flag. -/
def strEndsWithCI (s t : String) : Bool :=
  (lcList t.data).isSuffixOf (lcList s.data)

/-- First `n` characters of a string (JS `substring(0, n)` on BMP text). -/
def strTake (s : String) (n : Nat) : String := ⟨s.data.take n⟩

/-- Consume a literal case-insensitively from the front of a char list. -/
def stripLitCI : List Char → List Char → Option (List Char)
  | [], cs => some cs
  | _ :: _, [] => none
  | p :: ps, c :: cs => if c.toLower = p.toLower then stripLitCI ps cs else none

/-- Consume a literal case-sensitively from the front of a char list. -/
def stripLit : List Char → List Char → Option (List Char)
  | [], cs => some cs
  | _ :: _, [] => none
  | p :: ps, c :: cs => if c = p then stripLit ps cs else none

/-- Consume `\s+` (one or more whitespace characters, maximal munch).
In every pattern the analyzer uses, the token following `\s+` starts with a
non-whitespace character, so maximal munch agrees with backtracking. -/
def stripWS1 : List Char → Option (List Char)
  | [] => none
  | c :: cs => if jsWS c then some (cs.dropWhile jsWS) else none

/-- Consume `\s*`. -/
def stripWS (cs : List Char) : List Char := cs.dropWhile jsWS

/-- `anySuffix p cs` : `p` holds of some suffix of `cs` — i.e. an unanchored
regex whose body is decided by `p` matches somewhere in `cs`. -/
def anySuffix (p : List Char → Bool) : List Char → Bool
  | [] => p []
  | c :: cs => p (c :: cs) || anySuffix p cs

/-! ## Path arithmetic (`path.dirname`, `path.resolve`, `path.basename`)

The analyzer resolves relative import specifiers against the directory of the
importing file using Node's `path` module; all paths involved are absolute
POSIX paths produced by the scanner. -/

/-- Split a character list on `'/'`. -/
def splitSlashAux : List Char → List Char → List (List Char)
  | [], cur => [cur.reverse]
  | c :: rest, cur =>
    if c = '/' then cur.reverse :: splitSlashAux rest []
    else splitSlashAux rest (c :: cur)

/-- Process `.`/`..`/empty path segments, as `path.resolve` normalisation. -/
def normSegs : List (List Char) → List (List Char) → List (List Char)
  | [], acc => acc.reverse
  | s :: rest, acc =>
    if s = [] || s = ['.'] then normSegs rest acc
    else if s = ['.', '.'] then normSegs rest (acc.drop 1)
    else normSegs rest (s :: acc)

/-- `joinResolve dir rel` : `path.resolve(dir, rel)` for an absolute `dir`
and a relative `rel`. -/
def joinResolve (dir rel : String) : String :=
  ⟨'/' :: List.intercalate ['/'] (normSegs (splitSlashAux (dir.data ++ '/' :: rel.data) []) [])⟩

/-- `path.dirname` for the paths the analyzer manipulates. -/
def dirname (p : String) : String :=
  match p.data.reverse.dropWhile (· ≠ '/') with
  | [] => "."
  | ['/'] => "/"
  | _ :: rest => ⟨rest.reverse⟩

/-- `path.basename`. -/
def basename (p : String) : String :=
  ⟨(p.data.reverse.takeWhile (· ≠ '/')).reverse⟩

/-! ## The name filters (`isPascalCase`, `isLikelyComponent`)

`isLikelyComponent` (analyzer, `isLikelyComponent`) applies a fixed list of
JS regexes to the candidate name and to the raw content of the file whose
exports are being classified.  Each regex is modelled by a dedicated decision
procedure over character lists. -/

/-- `/^[A-Z][a-zA-Z0-9]*$/` (analyzer, `isPascalCase`). -/
def isPascalCase (name : String) : Bool :=
  match name.data with
  | [] => false
  | c :: rest => c.isUpper && rest.all (fun d => d.isAlpha || d.isDigit)

/-- Match `export\s+type\s+NAME\s*=` (flag `i`) at the head of `cs`. -/
def typeExportAt (name : List Char) (cs : List Char) : Bool :=
  match stripLitCI "export".data cs with
  | none => false
  | some r1 =>
    match stripWS1 r1 with
    | none => false
    | some r2 =>
      match stripLitCI "type".data r2 with
      | none => false
      | some r3 =>
        match stripWS1 r3 with
        | none => false
        | some r4 =>
          match stripLitCI name r4 with
          | none => false
          | some r5 =>
            match stripWS r5 with
            | '=' :: _ => true
            | _ => false

/-- Match `export\s+interface\s+NAME` (flag `i`) at the head of `cs`. -/
def interfaceExportAt (name : List Char) (cs : List Char) : Bool :=
  match stripLitCI "export".data cs with
  | none => false
  | some r1 =>
    match stripWS1 r1 with
    | none => false
    | some r2 =>
      match stripLitCI "interface".data r2 with
      | none => false
      | some r3 =>
        match stripWS1 r3 with
        | none => false
        | some r4 => (stripLitCI name r4).isSome

/-- Match `export\s+default\s+NAME` (flag `i`) at the head of `cs`. -/
def defaultExportAt (name : List Char) (cs : List Char) : Bool :=
  match stripLitCI "export".data cs with
  | none => false
  | some r1 =>
    match stripWS1 r1 with
    | none => false
    | some r2 =>
      match stripLitCI "default".data r2 with
      | none => false
      | some r3 =>
        match stripWS1 r3 with
        | none => false
        | some r4 => (stripLitCI name r4).isSome

/-- Scan the inside of an `export { ... }` block for `[^}]*\bNAME\b[^}]*\}`:
walk the characters after the opening brace (with `prev` the preceding
character, initially the brace), fail on a closing brace before `NAME`,
and accept an occurrence of `NAME` with word boundaries on both sides that is
eventually followed by a closing brace. -/
def braceScan (name : List Char) : Char → List Char → Bool
  | _, [] => false
  | prev, c :: cs =>
    if c = '}' then false
    else
      (if !isWordChar prev then
        match stripLitCI name (c :: cs) with
        | some rest =>
          (match rest with
           | [] => false
           | r :: _ => !isWordChar r) && rest.any (· = '}')
        | none => false
      else false) || braceScan name c cs

/-- Match `export\s*\{[^}]*\bNAME\b[^}]*\}` (flag `i`) at the head of `cs`. -/
def braceExportAt (name : List Char) (cs : List Char) : Bool :=
  match stripLitCI "export".data cs with
  | none => false
  | some r1 =>
    match stripWS r1 with
    | '{' :: rest => braceScan name '{' rest
    | _ => false

/-- `/^[a-z]+SUFFIX$/i` for a fixed alphabetic `SUFFIX`: the whole name is
alphabetic and ends, case-insensitively, in `SUFFIX` with a nonempty
remainder. -/
def lowerPlusSuffixCI (sfx : String) (name : String) : Bool :=
  name.data.all Char.isAlpha &&
  strEndsWithCI name sfx &&
  decide (sfx.data.length < name.data.length)

/-- One of the case-sensitive verb-prefix patterns
`/^(create|make|...)[A-Z]/`: `name` starts with `p` followed by an
upper-case letter. -/
def verbPrefixed (p : String) (name : String) : Bool :=
  match stripLit p.data name.data with
  | some (c :: _) => c.isUpper
  | _ => false

/-- `/^Api.*Provider$/`-style pattern: starts with `h`, ends with
`"Provider"`, the two do not overlap, and the middle contains no newline
(JS `.`). -/
def utilProviderPat (h : String) (name : String) : Bool :=
  match stripLit h.data name.data with
  | some rest =>
    strEndsWith ⟨rest⟩ "Provider" &&
    decide ("Provider".data.length ≤ rest.length) &&
    (rest.take (rest.length - "Provider".data.length)).all (fun c => !dotBlocked c)
  | none => false

/-- The closed list of non-component naming patterns of
`isLikelyComponent` (analyzer, `utilPatterns`). -/
def matchesUtilPattern (name : String) : Bool :=
  ["create", "make", "build", "generate", "get", "set", "is", "has",
   "can", "should", "will", "use"].any (fun p => verbPrefixed p name) ||
  ["format", "parse", "validate", "transform", "convert"].any
    (fun p => verbPrefixed p name) ||
  lowerPlusSuffixCI "utils" name || lowerPlusSuffixCI "util" name ||
  lowerPlusSuffixCI "helper" name ||
  lowerPlusSuffixCI "manager" name ||
  lowerPlusSuffixCI "service" name ||
  strEndsWith name "Config" ||
  strEndsWithCI name "constants" || strEndsWithCI name "constant" ||
  strEndsWithCI name "types" || strEndsWithCI name "type" ||
  strEndsWithCI name "enum"

/-- The utility-`Provider` denylist of `isLikelyComponent`. -/
def matchesUtilProvider (name : String) : Bool :=
  ["Api", "Http", "Data", "Service"].any (fun h => utilProviderPat h name)

/-- The component-likelihood filter (analyzer, `isLikelyComponent`): a
candidate `name` is rejected when the raw `content` shows it to be a
type-only export with no paired component export, when it matches a
non-component naming pattern, or when it is a utility `Provider`. -/
def isLikelyComponent (name : String) (content : String) : Bool :=
  let isOnlyTypeExport :=
    anySuffix (typeExportAt name.data) content.data ||
    anySuffix (interfaceExportAt name.data) content.data
  let hasComponentExport :=
    anySuffix (braceExportAt name.data) content.data ||
    anySuffix (defaultExportAt name.data) content.data
  if isOnlyTypeExport && !hasComponentExport then false
  else if matchesUtilPattern name then false
  else if strEndsWith name "Provider" && matchesUtilProvider name then false
  else true

/-! ## Data model -/

/-- One `ExportSpecifier` of an `ExportNamedDeclaration`: the exported name
(from an identifier or a string literal), the local name (`"default"` for
`export { default as X }`), and the specifier-level `exportKind === 'type'`
flag. -/
structure ExportSpec where
  exported : String
  localName : String
  isTypeOnly : Bool
  deriving DecidableEq, Repr

/-- The callee of a `CallExpression`, as inspected by
`looksLikeComponentCall`. -/
inductive CalleeKind where
  | memberCall (obj prop : String)
  | identCall (fn : String)
  | otherCallee
  deriving DecidableEq, Repr

/-- The initialiser of a `VariableDeclarator`, as inspected by the tracer. -/
inductive InitKind where
  | funExpr
  | arrowFunExpr
  | callExpr (cal : CalleeKind)
  | otherInitK
  deriving DecidableEq, Repr

/-- A Babel-traversal event relevant to the analyzer's visitors, in source
order.  `exportNamed specs src typeKind` is an `ExportNamedDeclaration` with
specifier list `specs`, optional string-literal source `src` and
declaration-level `exportKind === 'type'` flag `typeKind`; `export const X =
init` additionally fires a `varDecl` event for the nested declarator, and
`export default function Foo` fires `exportDefaultFun` followed by
`funDecl`. -/
inductive Stmt where
  | funDecl (name : String)
  | varDecl (name : String) (initKind : InitKind)
  | classDecl (name : String)
  | exportNamed (specs : List ExportSpec) (src : Option String) (typeKind : Bool)
  | exportAll (src : String)
  | exportDefaultIdent (name : String)
  | exportDefaultFun (name : Option String)
  | otherStmt
  deriving DecidableEq, Repr

/-- A scanned source file (`FileInfo` of `types.ts`, restricted to the fields
the analyzer core reads): absolute path, raw content, and the parsed
traversal events of the content. -/
structure FileInfo where
  path : String
  content : String
  stmts : List Stmt
  deriving DecidableEq, Repr

/-- Look a file up by exact path (`allFiles.find(f => f.path === p)`). -/
def findFile (files : List FileInfo) (p : String) : Option FileInfo :=
  files.find? (fun f => f.path == p)

/-! ## Association-list maps with `Map.set` semantics -/

/-- The `Map<string,string>` model. -/
abbrev AListSS := List (String × String)

/-- `Map.set`: overwrite an existing key in place, append a new key. -/
def mapSet : AListSS → String → String → AListSS
  | [], k, v => [(k, v)]
  | (k', v') :: rest, k, v =>
    if k' = k then (k', v) :: rest else (k', v') :: mapSet rest k v

/-- `Map.get` (first binding; the maps the analyzer builds have unique
keys). -/
def lookupA : AListSS → String → Option String
  | [], _ => none
  | (k', v) :: rest, k => if k' = k then some v else lookupA rest k

/-- Merge `m` into `acc` by `acc.set(k, v)` for each binding of `m`, in
order — the loop the analyzer runs over each awaited re-export map. -/
def mergeMaps (acc m : AListSS) : AListSS :=
  m.foldl (fun a b => mapSet a b.1 b.2) acc

/-- Value of the last binding of `k` in `m` (the binding that survives when
`m` is written into a `Map` left to right). -/
def lookupLast : AListSS → String → Option String
  | [], _ => none
  | (k', v) :: rest, k =>
    match lookupLast rest k with
    | some w => some w
    | none => if k' = k then some v else none

/-! ## `CodeParser.analyzeDependencies` (parser.ts) and its import regex

`analyzeDependencies` runs `/import\s+.*from\s+['"]([^'"]+)['"]/g` over the
raw content and, for each captured relative specifier, appends the first of
the four direct extensions `.ts .tsx .js .jsx` that names a scanned file. -/

/-- A character JS `['"]` matches. -/
def isQuote (c : Char) : Bool := c = '\'' || c = '"'

/-- Match `from\s+['"]([^'"]+)['"]` at the head of `cs`; on success return
the captured specifier and the remainder after the closing quote. -/
def matchFromTail (cs : List Char) : Option (String × List Char) :=
  match stripLit "from".data cs with
  | none => none
  | some r1 =>
    match stripWS1 r1 with
    | none => none
    | some r2 =>
      match r2 with
      | [] => none
      | q :: rest =>
        if isQuote q then
          let cap := rest.takeWhile (fun c => !isQuote c)
          match cap, rest.dropWhile (fun c => !isQuote c) with
          | [], _ => none
          | _, [] => none
          | _, _ :: rest2 => some (⟨cap⟩, rest2)
        else none

/-- Find the match of `.*from\s+['"]([^'"]+)['"]` starting at `cs` with `.*`
greedy: the `from` that begins furthest to the right wins, and `.*` cannot
cross a newline. -/
def findLastFrom : List Char → Option (String × List Char)
  | [] => none
  | c :: cs =>
    match if dotBlocked c then none else findLastFrom cs with
    | some r => some r
    | none => matchFromTail (c :: cs)

/-- Match the whole import regex at the head of `cs`. -/
def matchImportAt (cs : List Char) : Option (String × List Char) :=
  match stripLit "import".data cs with
  | none => none
  | some r1 =>
    match stripWS1 r1 with
    | none => none
    | some r2 => findLastFrom r2

/-- The `regex.exec` loop: find the leftmost match, record its capture,
continue after the match end. -/
def extractImportsGo : Nat → List Char → List String
  | 0, _ => []
  | _, [] => []
  | fuel + 1, c :: cs =>
    match matchImportAt (c :: cs) with
    | some (cap, rest) => cap :: extractImportsGo fuel rest
    | none => extractImportsGo fuel cs

/-- All specifiers captured by the global import regex over `content`. -/
def extractImports (content : String) : List String :=
  extractImportsGo content.data.length content.data

/-- The direct-extension list `analyzeDependencies` tries, in order. -/
def directExts : List String := [".ts", ".tsx", ".js", ".jsx"]

/-- First extension in `directExts` whose concatenation with `resolved`
names a scanned file — the `for`/`break` loop of `analyzeDependencies`. -/
def firstDirectExt (resolved : String) (allFiles : List FileInfo) : Option String :=
  directExts.find? (fun e => allFiles.any (fun f => f.path == resolved ++ e))

/-- `CodeParser.analyzeDependencies` (parser.ts): skip bare package imports,
resolve each relative specifier against the importing file's directory, and
keep the first direct-extension hit. -/
def analyzeDependencies (file : FileInfo) (allFiles : List FileInfo) : List String :=
  (extractImports file.content).foldl
    (fun deps imp =>
      if !strStartsWith imp "." then deps
      else
        let resolved := joinResolve (dirname file.path) imp
        match firstDirectExt resolved allFiles with
        | some e => deps ++ [resolved ++ e]
        | none => deps)
    []

/-! ## `ComponentAnalyzer.resolveFilePath` -/

/-- The extension/`index` variants `resolveFilePath` tries, in order. -/
def resolveExts : List String :=
  [".ts", ".tsx", ".js", ".jsx", "/index.ts", "/index.tsx", "/index.js", "/index.jsx"]

/-- `ComponentAnalyzer.resolveFilePath`: strip a leading `./`, resolve
against the directory of `indexPath`, and return the first variant present
in the Source Index. -/
def resolveFilePath (relativePath indexPath : String) (allFiles : List FileInfo) :
    Option String :=
  let clean := if strStartsWith relativePath "./" then ⟨relativePath.data.drop 2⟩
               else relativePath
  let absolute := joinResolve (dirname indexPath) clean
  (resolveExts.find? (fun e => allFiles.any (fun f => f.path == absolute ++ e))).map
    (fun e => absolute ++ e)

/-! ## `ComponentAnalyzer.extractComponentInfoFromIndex`

The extractor traverses one file's events building a name→path map
(`componentToFileMap`), queues one promise per `export * from` statement,
awaits them after the synchronous traversal and merges each resulting map
into `componentToFileMap` (`Map.set`, so re-export-derived bindings
overwrite traversal-derived ones), then filters the merged map through
`isPascalCase`/`isLikelyComponent` against the current file's raw content.

The mutual recursion with `extractComponentsFromReExportWithPaths` has no
visited set; the fuel parameter models the finite JS call stack, with fuel
exhaustion corresponding to the caught-stack-overflow path that yields an
empty map. -/

/-- The synchronous traversal step for one event (the
`ExportNamedDeclaration` / `ExportDefaultDeclaration` visitors). -/
def astStep (fPath : String) (allFiles : List FileInfo) (acc : AListSS) :
    Stmt → AListSS
  | .exportNamed specs (some src) typeKind =>
    if typeKind then acc
    else
      match resolveFilePath src fPath allFiles with
      | none => acc
      | some sp =>
        specs.foldl
          (fun a spec =>
            if spec.isTypeOnly then a
            else if isPascalCase spec.exported then mapSet a spec.exported sp
            else a)
          acc
  | .exportNamed specs none typeKind =>
    if typeKind then acc
    else
      specs.foldl
        (fun a spec =>
          if spec.isTypeOnly then a
          else if isPascalCase spec.exported then mapSet a spec.exported fPath
          else a)
        acc
  | .exportDefaultIdent n => if isPascalCase n then mapSet acc n fPath else acc
  | .exportDefaultFun (some n) => if isPascalCase n then mapSet acc n fPath else acc
  | _ => acc

/-- The synchronous traversal over all events. -/
def astPhase (fPath : String) (allFiles : List FileInfo) :
    List Stmt → AListSS → AListSS
  | [], acc => acc
  | s :: rest, acc => astPhase fPath allFiles rest (astStep fPath allFiles acc s)

/-- The sources of the `export * from` statements, in traversal order. -/
def starSources (stmts : List Stmt) : List String :=
  stmts.filterMap (fun s => match s with | .exportAll src => some src | _ => none)

/-- The final filter of the extractor: keep the PascalCase, likely-component
bindings, re-inserting them in order into a fresh map. -/
def filterPhase (m : AListSS) (content : String) : AListSS :=
  m.foldl
    (fun fm b =>
      if isPascalCase b.1 && isLikelyComponent b.1 content then mapSet fm b.1 b.2
      else fm)
    []

/-- `ComponentAnalyzer.extractComponentInfoFromIndex`, fuelled. -/
def extractComponentInfoFromIndex :
    Nat → FileInfo → List FileInfo → AListSS
  | 0, _, _ => []
  | fuel + 1, f, allFiles =>
    let ast := astPhase f.path allFiles f.stmts []
    let merged :=
      (starSources f.stmts).foldl
        (fun acc src =>
          mergeMaps acc
            (match resolveFilePath src f.path allFiles with
             | none => []
             | some p =>
               match findFile allFiles p with
               | none => []
               | some tf => extractComponentInfoFromIndex fuel tf allFiles))
        ast
    filterPhase merged f.content

/-- `ComponentAnalyzer.extractComponentsFromReExportWithPaths`: resolve the
re-export source and recursively extract the target file's map; any failure
(unresolvable path, missing file, error) yields an empty map. -/
def extractComponentsFromReExportWithPaths
    (fuel : Nat) (relativePath indexPath : String) (allFiles : List FileInfo) :
    AListSS :=
  match resolveFilePath relativePath indexPath allFiles with
  | none => []
  | some p =>
    match findFile allFiles p with
    | none => []
    | some tf => extractComponentInfoFromIndex fuel tf allFiles

/-! ## `ComponentAnalyzer.traceComponentImplementation` -/

/-- `looksLikeComponentCall` (analyzer): `React.forwardRef/memo/lazy`, any
call on `styled`, or a bare `forwardRef/memo/lazy` call. -/
def looksLikeComponentCall : CalleeKind → Bool
  | .memberCall obj prop =>
    (obj = "React" && (prop = "forwardRef" || prop = "memo" || prop = "lazy")) ||
    obj = "styled"
  | .identCall fn => fn = "forwardRef" || fn = "memo" || fn = "lazy"
  | .otherCallee => false

/-- A variable initialiser the tracer counts as a component implementation. -/
def isComponentInit : InitKind → Bool
  | .funExpr => true
  | .arrowFunExpr => true
  | .callExpr cal => looksLikeComponentCall cal
  | .otherInitK => false

/-- Add a file to the tracer's dependency set (a JS `Set`, insertion
ordered). -/
def addDep (deps : List FileInfo) (f : FileInfo) : List FileInfo :=
  if f ∈ deps then deps else deps ++ [f]

/-- The mutable flags of one hop's AST traversal
(`foundImplementation`, `nextTraceTarget`, `defaultAsTarget`), plus the
dependency set the `default as` branch writes into. -/
structure ScanAcc where
  found : Bool
  next : Option (String × String)
  defAs : Option FileInfo
  deps : List FileInfo
  deriving DecidableEq, Repr

/-- One traversal event of the tracer's visitors (`FunctionDeclaration`,
`VariableDeclarator`, `ClassDeclaration`, `ExportNamedDeclaration`,
`ExportAllDeclaration`, `ExportDefaultDeclaration`).  The tracer's
`ExportNamedDeclaration` visitor ignores `type` export kinds. -/
def scanStmt (allFiles : List FileInfo) (name fPath : String) (acc : ScanAcc) :
    Stmt → ScanAcc
  | .funDecl n => if n = name then { acc with found := true } else acc
  | .varDecl n initKind =>
    if n = name && isComponentInit initKind then { acc with found := true } else acc
  | .classDecl n => if n = name then { acc with found := true } else acc
  | .exportNamed specs (some src) _ =>
    specs.foldl
      (fun a spec =>
        if spec.exported = name then
          match resolveFilePath src fPath allFiles with
          | none => a
          | some tp =>
            if spec.localName = "default" then
              match findFile allFiles tp with
              | none => a
              | some tf =>
                { a with deps := addDep a.deps tf, defAs := some tf, found := true }
            else { a with next := some (spec.localName, tp) }
        else a)
      acc
  | .exportNamed _ none _ => acc
  | .exportAll src =>
    match resolveFilePath src fPath allFiles with
    | none => acc
    | some tp => { acc with next := some (name, tp) }
  | .exportDefaultIdent n => if n = name then { acc with found := true } else acc
  | .exportDefaultFun (some n) => if n = name then { acc with found := true } else acc
  | .exportDefaultFun none => acc
  | .otherStmt => acc

/-- Traverse a file's events, threading the flags. -/
def scanStmts (allFiles : List FileInfo) (name fPath : String)
    (stmts : List Stmt) (acc : ScanAcc) : ScanAcc :=
  stmts.foldl (scanStmt allFiles name fPath) acc

/-- The tracer's shared mutable state: the visited-path set and the
dependency set. -/
structure TraceState where
  visited : List String
  deps : List FileInfo
  deriving DecidableEq, Repr

/-- The inner recursive `traceImplementation` closure: one state transition
per hop.  Returns the implementation file (or `none`) and the final shared
state.  The `depth > 10` cap and the visited check both return `null` in the
source; a hop that finds neither an implementation nor a re-export returns
the current file.

The recursion is driven by `gas`, kept equal to `11 - depth` (the top-level
call passes `gas = 11`, `depth = 0`, and each hop passes `gas - 1`,
`depth + 1`); under that invariant `gas = 0` holds exactly when
`depth = 11 > 10`, so the `gas = 0` branch returns the same `(none, st)` the
source's depth guard returns, and the definition computes the source
recursion exactly. -/
def traceImplementation (allFiles : List FileInfo) :
    Nat → String → String → Nat → TraceState → Option FileInfo × TraceState
  | 0, _, _, _, st => (none, st)
  | gas + 1, name, fPath, depth, st =>
    if depth > 10 then (none, st)
    else if fPath ∈ st.visited then (none, st)
    else
      let st1 : TraceState := { st with visited := st.visited ++ [fPath] }
      match findFile allFiles fPath with
      | none => (none, st1)
      | some file =>
        let st2 : TraceState := { st1 with deps := addDep st1.deps file }
        let acc := scanStmts allFiles name fPath file.stmts
          { found := false, next := none, defAs := none, deps := st2.deps }
        let st3 : TraceState := { st2 with deps := acc.deps }
        if acc.found then
          match acc.defAs with
          | some tf => (some tf, st3)
          | none => (some file, st3)
        else
          match acc.next with
          | some (n', p') => traceImplementation allFiles gas n' p' (depth + 1) st3
          | none => (some file, st3)

/-- The record `traceComponentImplementation` returns for a traced
component. -/
structure TraceResult where
  name : String
  code : String
  path : String
  file : FileInfo
  dependencies : List FileInfo
  deriving DecidableEq, Repr

/-- `ComponentAnalyzer.traceComponentImplementation`: run the hop recursion
from depth 0 with empty visited/dependency sets; a `null` implementation
file makes the whole trace `null` and the component is omitted by
`identifyComponentsFromIndex`. -/
def traceComponentImplementation (allFiles : List FileInfo)
    (componentName filePath : String) : Option TraceResult :=
  match traceImplementation allFiles 11 componentName filePath 0 ⟨[], []⟩ with
  | (some f, st) => some ⟨componentName, f.content, f.path, f, st.deps⟩
  | (none, _) => none

/-! ## `ComponentAnalyzer.buildDependencyContext` -/

/-- A component record as assembled by `scanComponents` /
`identifyComponentsFromIndex` (`name`, `code`, `path`, `file`,
`dependencies`); `deps = []` covers both an absent and an empty
`dependencies` field, which the builder treats alike. -/
structure Comp where
  name : String
  code : String
  path : String
  file : FileInfo
  deps : List FileInfo
  deriving DecidableEq, Repr

/-- The `{ file, dependencies }` projection the recursive collector passes
to itself. -/
structure CompLite where
  file : FileInfo
  deps : List FileInfo
  deriving DecidableEq, Repr

/-- The fixed truncation marker appended to an over-long snippet. -/
def truncMark : String := "\n// ... (文件内容已截断)"

/-- Snippet truncation: content of more than 3,000 characters is cut at
3,000 and the marker appended. -/
def truncCode (code : String) : String :=
  if code.length > 3000 then strTake code 3000 ++ truncMark else code

/-- An entry of the builder's `relatedFiles` list: either a dependency
snippet (depth tag, basename of the file, truncated source text) or the
final overflow marker recording how many snippets were dropped by the global
cap. -/
inductive Snippet where
  | text (depth : Nat) (base : String) (body : String)
  | overflow (omitted : Nat)
  deriving DecidableEq, Repr

/-- Is this entry a source-carrying snippet (as opposed to the overflow
marker)? -/
def Snippet.isText : Snippet → Bool
  | .text _ _ _ => true
  | .overflow _ => false

/-- The string the analyzer actually pushes for each entry. -/
def Snippet.render : Snippet → String
  | .text depth base body =>
    "// 依赖文件: " ++ base ++ " (深度: " ++ toString depth ++ ")\n" ++ body
  | .overflow omitted =>
    "// ... 还有 " ++ toString omitted ++ " 个依赖文件未显示"

/-- The builder's accumulated state (`processedPaths`, `relatedFiles`,
`dependencyPaths`, `dependencyDepths`).  The purely descriptive
`dependencyTree` is not modelled; it feeds logging only. -/
structure BuildState where
  processed : List String
  snippets : List Snippet
  depPaths : List String
  depDepths : List Nat
  deriving DecidableEq, Repr

/-- The recursive `collectDependencies` closure.  `fuel = maxDepth - depth`,
so `fuel = 0` is exactly the `currentDepth >= maxDepth` entry guard; each
child recursion runs at `depth + 1` with `fuel - 1`.  Per node: mark the
node processed, take its pre-collected dependency paths (or derive them with
`analyzeDependencies`), and for the first 5 of them record path/depth, push
a truncated snippet when the dependency's code is under 8,000 characters,
and recurse. -/
def collectDependencies (allComps : List Comp) :
    Nat → CompLite → Nat → BuildState → BuildState
  | 0, _, _, st => st
  | fuel + 1, c, depth, st =>
    if c.file.path ∈ st.processed then st
    else
      let st1 : BuildState := { st with processed := st.processed ++ [c.file.path] }
      let depList : List String :=
        if c.deps.isEmpty then
          analyzeDependencies c.file (allComps.map (·.file))
        else c.deps.map (·.path)
      (depList.take 5).foldl
        (fun st2 depPath =>
          match allComps.find? (fun k => k.path == depPath) with
          | none => st2
          | some depComp =>
            if depPath ∈ st2.processed then st2
            else
              let st3 : BuildState :=
                { st2 with depPaths := st2.depPaths ++ [depPath],
                           depDepths := st2.depDepths ++ [depth + 1] }
              let st4 : BuildState :=
                if depComp.code.length < 8000 then
                  { st3 with snippets :=
                      st3.snippets ++
                        [Snippet.text (depth + 1) (basename depPath)
                          (truncCode depComp.code)] }
                else st3
              collectDependencies allComps fuel ⟨depComp.file, depComp.deps⟩
                (depth + 1) st4)
        st1

/-- The `DependencyContext` the builder returns (`relatedFiles`,
`dependencyPaths`, `dependencyDepths`). -/
structure DependencyContext where
  relatedFiles : List Snippet
  dependencyPaths : List String
  dependencyDepths : List Nat
  deriving DecidableEq, Repr

/-- `ComponentAnalyzer.buildDependencyContext`: run the bounded walk from
depth 0, then apply the global cap of 8 snippets, appending an overflow
marker entry when snippets were dropped. -/
def buildDependencyContext (component : Comp) (allComps : List Comp)
    (maxDepth : Nat) : DependencyContext :=
  let st := collectDependencies allComps maxDepth ⟨component.file, component.deps⟩ 0
    ⟨[], [], [], []⟩
  let limited := st.snippets.take 8
  let limited' :=
    if st.snippets.length > 8 then limited ++ [Snippet.overflow (st.snippets.length - 8)]
    else limited
  ⟨limited', st.depPaths, st.depDepths⟩

/-! ## `ComponentAnalyzer.analyzeComponents`: candidate cap, batch size,
interruption

`analyzeComponents` slices the candidate list to at most 100 entries
(logging one notice when it drops any), computes a batch size from the
sliced length, and processes the batches sequentially.  Its `SIGINT`/
`SIGTERM` handler, once a batch has installed an `AbortController`, logs,
sets the abort flag, aborts the controller, fails the spinner — and then
calls `process.exit(130)`, so on an interrupt delivered while a batch is in
flight the function never returns; the loop's own abort handling
(`if (isAborted) break`, the cancelled-spinner message, the `return
components` of partial results) is reachable only if the abort flag were set
without exiting. -/

/-- The per-run ceiling on analyzed candidates (`maxComponents`). -/
def maxComponents : Nat := 100

/-- The slice of candidates actually analyzed. -/
def componentsToAnalyze {α : Type} (cands : List α) : List α :=
  cands.take maxComponents

/-- Whether the single excess notice is printed. -/
def excessNotice {α : Type} (cands : List α) : Bool :=
  decide (cands.length > maxComponents)

/-- `ComponentAnalyzer.calculateOptimalBatchSize`. -/
def calculateOptimalBatchSize (totalComponents : Nat) : Nat :=
  if totalComponents ≤ 10 then 2
  else if totalComponents ≤ 30 then 3
  else if totalComponents ≤ 60 then 4
  else 5

/-- The batch size a run with candidate list `cands` uses. -/
def batchSizeFor {α : Type} (cands : List α) : Nat :=
  calculateOptimalBatchSize (componentsToAnalyze cands).length

/-- `slice(i, i + batchSize)` chunking, structurally recursive on a length
fuel (each step consumes at least the head element, so `l.length` steps
always suffice and the fuel-0 branch is unreachable). -/
def chunksOfGo {α : Type} (bs : Nat) : Nat → List α → List (List α)
  | 0, _ => []
  | _ + 1, [] => []
  | fuel + 1, a :: rest => (a :: rest).take bs :: chunksOfGo bs fuel (rest.drop (bs - 1))

/-- `slice(i, i + batchSize)` chunking of the candidate list. -/
def chunksOf {α : Type} (bs : Nat) (l : List α) : List (List α) :=
  chunksOfGo bs l.length l

/-- Outcome of a run: a returned result list, or process termination with an
exit code. -/
inductive RunOutcome (β : Type) where
  | completed (results : List β)
  | exited (code : Nat)
  deriving DecidableEq, Repr

/-- The sequential batch loop.  `analyze` is the per-candidate external
analysis (`null` = per-candidate failure, filtered out of the batch's
results).  `sigintAt = some k` delivers the interrupt while batch `k` is in
flight: the handler finds a live `AbortController`, and `process.exit(130)`
terminates the run — no result list is returned.  `sigintAt = none` is an
uninterrupted run. -/
def runBatches {α β : Type} (analyze : α → Option β) (sigintAt : Option Nat) :
    List (List α) → Nat → List β → RunOutcome β
  | [], _, acc => .completed acc
  | b :: rest, idx, acc =>
    if sigintAt = some idx then .exited 130
    else runBatches analyze sigintAt rest (idx + 1) (acc ++ b.filterMap analyze)

/-- `ComponentAnalyzer.analyzeComponents`, as a function of the candidate
list, the external analysis, and the interrupt schedule. -/
def analyzeComponentsRun {α β : Type} (cands : List α) (analyze : α → Option β)
    (sigintAt : Option Nat) : RunOutcome β :=
  runBatches analyze sigintAt
    (chunksOf (batchSizeFor cands) (componentsToAnalyze cands)) 0 []

/-! ## Derived notions used in the statements -/

/-- A traversal event that neither re-exports from another module nor
expands a wildcard: the entry-file shapes the spec calls "only local
definitions and no re-exports". -/
def stmtLocalOnly : Stmt → Bool
  | .exportNamed _ (some _) _ => false
  | .exportAll _ => false
  | _ => true

/-- The PascalCase names a specifier list without a `from` clause
contributes (skipping `type` specifiers), in order. -/
def specLocalNames (specs : List ExportSpec) : List String :=
  specs.filterMap
    (fun sp =>
      if !sp.isTypeOnly && isPascalCase sp.exported then some sp.exported else none)

/-- The PascalCase names the synchronous traversal maps to the entry file
itself: brace exports without a source, `export default Ident` and named
`export default function`. -/
def localExportNames : List Stmt → List String
  | [] => []
  | .exportNamed specs none typeKind :: rest =>
    (if typeKind then [] else specLocalNames specs) ++ localExportNames rest
  | .exportDefaultIdent n :: rest =>
    (if isPascalCase n then [n] else []) ++ localExportNames rest
  | .exportDefaultFun (some n) :: rest =>
    (if isPascalCase n then [n] else []) ++ localExportNames rest
  | _ :: rest => localExportNames rest

/-- The maps produced by the file's `export * from` expansions, in
statement order. -/
def starMapsOf (fuel : Nat) (f : FileInfo) (allFiles : List FileInfo) :
    List AListSS :=
  (starSources f.stmts).map
    (fun src => extractComponentsFromReExportWithPaths fuel src f.path allFiles)

/-- The binding a key ends up with after all the maps of `maps` are merged
into one `Map` in order (later maps win; within a map, later bindings
win). -/
def lastStarLookup : List AListSS → String → Option String
  | [], _ => none
  | m :: rest, k =>
    match lastStarLookup rest k with
    | some v => some v
    | none => lookupLast m k

/-- The keys of an association-list map. -/
def keysOf (m : AListSS) : List String := m.map (·.1)

/-- The maps the analyzer builds never bind a key twice. -/
def NoDupKeys (m : AListSS) : Prop := (keysOf m).Nodup

/-! # Lemmas and claim theorems -/

/-! ## Association-list map lemmas -/

theorem lookupA_mapSet_self (m : AListSS) (k v : String) :
    lookupA (mapSet m k v) k = some v := by
  induction m with
  | nil => simp [mapSet, lookupA]
  | cons b rest ih =>
    by_cases h : b.1 = k
    · simp [mapSet, h, lookupA]
    · simp [mapSet, h, lookupA, ih]

theorem lookupA_mapSet_ne (m : AListSS) (k k' v : String) (h : k' ≠ k) :
    lookupA (mapSet m k' v) k = lookupA m k := by
  induction m with
  | nil => simp [mapSet, lookupA, h]
  | cons b rest ih =>
    by_cases hb : b.1 = k'
    · simp [mapSet, hb, lookupA, h]
    · simp [mapSet, hb, lookupA, ih]

theorem lookupA_isSome_mapSet (m : AListSS) (k k' v : String)
    (h : (lookupA m k).isSome) : (lookupA (mapSet m k' v) k).isSome := by
  by_cases hk : k' = k
  · subst hk; simp [lookupA_mapSet_self]
  · rwa [lookupA_mapSet_ne m k k' v hk]

theorem lookupA_eq_none_of_not_mem_keys (m : AListSS) (k : String)
    (h : k ∉ keysOf m) : lookupA m k = none := by
  induction m with
  | nil => simp [lookupA]
  | cons b rest ih =>
    simp only [keysOf, List.map_cons, List.mem_cons, not_or] at h
    have hb : b.1 ≠ k := fun he => h.1 he.symm
    simp [lookupA, hb, ih (by simpa [keysOf] using h.2)]

theorem lookupA_mergeMaps (acc m : AListSS) (k : String) :
    lookupA (mergeMaps acc m) k =
      match lookupLast m k with
      | some v => some v
      | none => lookupA acc k := by
  induction m generalizing acc with
  | nil => simp [mergeMaps, lookupLast]
  | cons b rest ih =>
    have hstep : mergeMaps acc (b :: rest) = mergeMaps (mapSet acc b.1 b.2) rest := by
      simp [mergeMaps]
    rw [hstep, ih]
    cases hrest : lookupLast rest k with
    | some v => simp [lookupLast, hrest]
    | none =>
      by_cases hk : b.1 = k
      · subst hk; simp [lookupLast, hrest, lookupA_mapSet_self]
      · simp [lookupLast, hrest, hk, lookupA_mapSet_ne acc k b.1 b.2 hk]

theorem lookupA_isSome_mergeMaps_left (acc m : AListSS) (k : String)
    (h : (lookupA acc k).isSome) : (lookupA (mergeMaps acc m) k).isSome := by
  rw [lookupA_mergeMaps]
  cases hm : lookupLast m k <;> simp [h]

theorem lookupLast_isSome_of_mem (m : AListSS) (k v : String)
    (h : (k, v) ∈ m) : (lookupLast m k).isSome := by
  induction m with
  | nil => simp at h
  | cons b rest ih =>
    rcases List.mem_cons.mp h with hb | hrest
    · cases hb
      cases hr : lookupLast rest k <;> simp [lookupLast, hr]
    · have := ih hrest
      cases hr : lookupLast rest k <;> simp_all [lookupLast]

theorem lookupA_isSome_mergeMaps_right (acc m : AListSS) (k : String)
    (h : (lookupLast m k).isSome) : (lookupA (mergeMaps acc m) k).isSome := by
  rw [lookupA_mergeMaps]
  cases hm : lookupLast m k
  · rw [hm] at h; simp at h
  · simp

/-- The keys after a `mapSet`: unchanged for an existing key, the new key
appended otherwise. -/
theorem keysOf_mapSet (m : AListSS) (k v : String) :
    keysOf (mapSet m k v) = if k ∈ keysOf m then keysOf m else keysOf m ++ [k] := by
  induction m with
  | nil => simp [mapSet, keysOf]
  | cons b rest ih =>
    by_cases hb : b.1 = k
    · simp [mapSet, hb, keysOf]
    · have hnk : ¬k = b.1 := fun he => hb he.symm
      simp only [mapSet, hb, if_false, keysOf, List.map_cons]
      by_cases hk : k ∈ keysOf rest
      · simp [keysOf] at ih hk
        simp [List.mem_cons, hnk, hk, ih]
      · simp [keysOf] at ih hk
        simp [List.mem_cons, hnk, hk, ih]

/-- `NoDupKeys` is preserved by `mapSet`. -/
theorem noDupKeys_mapSet (m : AListSS) (k v : String) (h : NoDupKeys m) :
    NoDupKeys (mapSet m k v) := by
  unfold NoDupKeys at h ⊢
  rw [keysOf_mapSet]
  by_cases hk : k ∈ keysOf m
  · simpa [hk] using h
  · rw [if_neg hk, List.nodup_append]
    refine ⟨h, List.nodup_singleton k, ?_⟩
    intro a ha hb
    simp at hb
    exact hk (hb ▸ ha)

/-- `NoDupKeys` is preserved by any fold of `mapSet`-or-skip steps. -/
theorem noDupKeys_foldl {β : Type}
    (step : AListSS → β → AListSS)
    (hstep : ∀ a x, NoDupKeys a → NoDupKeys (step a x)) :
    ∀ (l : List β) (a : AListSS), NoDupKeys a → NoDupKeys (l.foldl step a) := by
  intro l
  induction l with
  | nil => intro a ha; simpa using ha
  | cons x rest ih => intro a ha; exact ih _ (hstep a x ha)

/-- `NoDupKeys` is preserved by merging another map in. -/
theorem noDupKeys_mergeMaps (acc m : AListSS) (h : NoDupKeys acc) :
    NoDupKeys (mergeMaps acc m) := by
  unfold mergeMaps
  exact noDupKeys_foldl (fun a b => mapSet a b.1 b.2)
    (fun a b ha => noDupKeys_mapSet a b.1 b.2 ha) m acc h

/-- Folding merges over a base map: a key bound by any of the merged maps
gets the later-maps-win value; otherwise the base binding survives. -/
theorem lookupA_foldl_mergeMaps (maps : List AListSS) (base : AListSS) (k : String) :
    lookupA (maps.foldl mergeMaps base) k =
      match lastStarLookup maps k with
      | some v => some v
      | none => lookupA base k := by
  induction maps generalizing base with
  | nil => simp [lastStarLookup]
  | cons m rest ih =>
    rw [List.foldl_cons, ih]
    cases hrest : lastStarLookup rest k with
    | some v => simp [lastStarLookup, hrest]
    | none =>
      rw [lookupA_mergeMaps]
      cases hm : lookupLast m k <;> simp [lastStarLookup, hrest, hm]

/-- The predicate of the extractor's final filter. -/
def filterPred (content : String) (k : String) : Bool :=
  isPascalCase k && isLikelyComponent k content

/-- Lookup through the extractor's final filter (the source map has unique
keys, as every map the analyzer builds does). -/
theorem lookupA_filterPhase (m : AListSS) (content : String) (k : String)
    (hm : NoDupKeys m) :
    lookupA (filterPhase m content) k =
      match lookupA m k with
      | some v => if filterPred content k then some v else none
      | none => none := by
  have main : ∀ (m' : AListSS) (acc : AListSS), NoDupKeys m' →
      lookupA (m'.foldl
        (fun fm b =>
          if isPascalCase b.1 && isLikelyComponent b.1 content then mapSet fm b.1 b.2
          else fm) acc) k =
      match lookupA m' k with
      | some v => if filterPred content k then some v else lookupA acc k
      | none => lookupA acc k := by
    intro m'
    induction m' with
    | nil => intro acc _; simp [lookupA]
    | cons b rest ih =>
      intro acc hnd
      have hndr : NoDupKeys rest := by
        simp only [NoDupKeys, keysOf, List.map_cons, List.nodup_cons] at hnd
        exact hnd.2
      have hnotmem : b.1 ∉ keysOf rest := by
        simp only [NoDupKeys, keysOf, List.map_cons, List.nodup_cons] at hnd
        exact hnd.1
      rw [List.foldl_cons, ih _ hndr]
      by_cases hk : b.1 = k
      · subst hk
        have : lookupA rest b.1 = none :=
          lookupA_eq_none_of_not_mem_keys rest b.1 hnotmem
        rw [this]
        simp only [lookupA, if_pos rfl]
        by_cases hp : filterPred content b.1
        · have hp' : (isPascalCase b.1 && isLikelyComponent b.1 content) = true := hp
          simp [hp', hp, lookupA_mapSet_self]
        · have hp' : (isPascalCase b.1 && isLikelyComponent b.1 content) = false := by
            simpa [filterPred] using hp
          simp [hp', hp]
      · have hlk : lookupA ((b.1, b.2) :: rest) k = lookupA rest k := by
          simp [lookupA, hk]
        rw [show ((b.1, b.2) :: rest : AListSS) = b :: rest by rfl] at *
        have hlk2 : lookupA (b :: rest) k = lookupA rest k := by
          simp [lookupA, hk]
        rw [hlk2]
        by_cases hp : (isPascalCase b.1 && isLikelyComponent b.1 content) = true
        · simp only [hp, if_true]
          cases hr : lookupA rest k <;>
            simp [lookupA_mapSet_ne acc k b.1 b.2 hk]
        · simp only [hp]
          cases hr : lookupA rest k <;> simp
  have := main m [] hm
  simpa [filterPhase, lookupA] using this

/-- Every key the extractor's filter lets through is PascalCase (and passes
the likelihood filter for the given content). -/
theorem filterPhase_keys_pred (m : AListSS) (content : String) (k : String)
    (h : (lookupA (filterPhase m content) k).isSome) :
    filterPred content k = true := by
  have main : ∀ (m' : AListSS) (acc : AListSS),
      (lookupA (m'.foldl
        (fun fm b =>
          if isPascalCase b.1 && isLikelyComponent b.1 content then mapSet fm b.1 b.2
          else fm) acc) k).isSome →
      (lookupA acc k).isSome ∨ filterPred content k = true := by
    intro m'
    induction m' with
    | nil => intro acc h'; exact Or.inl h'
    | cons b rest ih =>
      intro acc h'
      rw [List.foldl_cons] at h'
      rcases ih _ h' with hacc | hp
      · by_cases hcond : (isPascalCase b.1 && isLikelyComponent b.1 content) = true
        · rw [if_pos hcond] at hacc
          by_cases hk : b.1 = k
          · subst hk; exact Or.inr (by simpa [filterPred] using hcond)
          · rw [lookupA_mapSet_ne acc k b.1 b.2 hk] at hacc
            exact Or.inl hacc
        · simp only [hcond, if_false] at hacc
          exact Or.inl hacc
      · exact Or.inr hp
  rcases main m [] (by simpa [filterPhase] using h) with h0 | hp
  · simp [lookupA] at h0
  · exact hp

/-- One traversal step preserves key uniqueness. -/
theorem noDupKeys_astStep (fPath : String) (allFiles : List FileInfo)
    (acc : AListSS) (s : Stmt) (h : NoDupKeys acc) :
    NoDupKeys (astStep fPath allFiles acc s) := by
  cases s with
  | exportNamed specs src typeKind =>
    cases src with
    | some src' =>
      by_cases ht : typeKind
      · simpa [astStep, ht] using h
      · simp only [astStep, ht, if_false]
        cases hr : resolveFilePath src' fPath allFiles with
        | none => exact h
        | some sp =>
          refine noDupKeys_foldl _ ?_ specs acc h
          intro a spec ha
          by_cases h1 : spec.isTypeOnly
          · simpa [h1] using ha
          · by_cases h2 : isPascalCase spec.exported
            · simpa [h1, h2] using noDupKeys_mapSet a spec.exported sp ha
            · simpa [h1, h2] using ha
    | none =>
      by_cases ht : typeKind
      · simpa [astStep, ht] using h
      · simp only [astStep, ht, if_false]
        refine noDupKeys_foldl _ ?_ specs acc h
        intro a spec ha
        by_cases h1 : spec.isTypeOnly
        · simpa [h1] using ha
        · by_cases h2 : isPascalCase spec.exported
          · simpa [h1, h2] using noDupKeys_mapSet a spec.exported fPath ha
          · simpa [h1, h2] using ha
  | exportDefaultIdent n =>
    by_cases h2 : isPascalCase n
    · simpa [astStep, h2] using noDupKeys_mapSet acc n fPath h
    · simpa [astStep, h2] using h
  | exportDefaultFun n =>
    cases n with
    | none => simpa [astStep] using h
    | some n' =>
      by_cases h2 : isPascalCase n'
      · simpa [astStep, h2] using noDupKeys_mapSet acc n' fPath h
      · simpa [astStep, h2] using h
  | funDecl n => simpa [astStep] using h
  | varDecl n ik => simpa [astStep] using h
  | classDecl n => simpa [astStep] using h
  | exportAll src => simpa [astStep] using h
  | otherStmt => simpa [astStep] using h

/-- The synchronous traversal preserves key uniqueness. -/
theorem noDupKeys_astPhase (fPath : String) (allFiles : List FileInfo)
    (stmts : List Stmt) (acc : AListSS) (h : NoDupKeys acc) :
    NoDupKeys (astPhase fPath allFiles stmts acc) := by
  induction stmts generalizing acc with
  | nil => simpa [astPhase] using h
  | cons s rest ih =>
    exact ih _ (noDupKeys_astStep fPath allFiles acc s h)

/-- The extractor's recursion, unfolded through the named pieces: traversal
map, then export-star maps merged in statement order, then the final
filter. -/
theorem extract_succ (fuel : Nat) (f : FileInfo) (allFiles : List FileInfo) :
    extractComponentInfoFromIndex (fuel + 1) f allFiles =
      filterPhase
        ((starMapsOf fuel f allFiles).foldl mergeMaps
          (astPhase f.path allFiles f.stmts []))
        f.content := by
  simp [extractComponentInfoFromIndex, starMapsOf, List.foldl_map,
    extractComponentsFromReExportWithPaths]

/-- Every map the extractor returns has unique keys. -/
theorem noDupKeys_extract (fuel : Nat) (f : FileInfo) (allFiles : List FileInfo) :
    NoDupKeys (extractComponentInfoFromIndex fuel f allFiles) := by
  cases fuel with
  | zero => simp [extractComponentInfoFromIndex, NoDupKeys, keysOf]
  | succ fuel =>
    rw [extract_succ]
    unfold filterPhase
    refine noDupKeys_foldl _ ?_ _ [] (by simp [NoDupKeys, keysOf])
    intro a b ha
    by_cases hc : (isPascalCase b.1 && isLikelyComponent b.1 f.content) = true
    · simpa [hc] using noDupKeys_mapSet a b.1 b.2 ha
    · simpa [hc] using ha

/-- A local-only statement list has no export-star sources. -/
theorem starSources_eq_nil_of_localOnly (stmts : List Stmt)
    (h : ∀ s ∈ stmts, stmtLocalOnly s = true) : starSources stmts = [] := by
  induction stmts with
  | nil => simp [starSources]
  | cons s rest ih =>
    have hs := h s (List.mem_cons_self s rest)
    have hrest := ih (fun t ht => h t (List.mem_cons_of_mem s ht))
    cases s <;> simp_all [starSources, stmtLocalOnly]

/-- Names contributed by a `from`-less specifier list are PascalCase. -/
theorem isPascalCase_of_mem_specLocalNames (specs : List ExportSpec) (name : String)
    (h : name ∈ specLocalNames specs) : isPascalCase name = true := by
  induction specs with
  | nil => simp [specLocalNames] at h
  | cons sp rest ih =>
    by_cases h3 : sp.isTypeOnly
    · refine ih ?_
      simpa [specLocalNames, List.filterMap_cons, h3] using h
    · by_cases h4 : isPascalCase sp.exported
      · have h' : name = sp.exported ∨ name ∈ specLocalNames rest := by
          simpa [specLocalNames, List.filterMap_cons, h3, h4] using h
        rcases h' with h1 | h2
        · exact h1 ▸ h4
        · exact ih h2
      · refine ih ?_
        simpa [specLocalNames, List.filterMap_cons, h3, h4] using h

/-- Names collected by `localExportNames` are PascalCase. -/
theorem isPascalCase_of_mem_localExportNames (stmts : List Stmt) (name : String)
    (h : name ∈ localExportNames stmts) : isPascalCase name = true := by
  induction stmts with
  | nil => simp [localExportNames] at h
  | cons s rest ih =>
    cases s with
    | exportNamed specs src typeKind =>
      cases src with
      | some _ => exact ih (by simpa [localExportNames] using h)
      | none =>
        by_cases ht : typeKind
        · exact ih (by simpa [localExportNames, ht] using h)
        · have h' : name ∈ specLocalNames specs ∨ name ∈ localExportNames rest := by
            simpa [localExportNames, ht, List.mem_append] using h
          rcases h' with h1 | h2
          · exact isPascalCase_of_mem_specLocalNames specs name h1
          · exact ih h2
    | exportDefaultIdent n =>
      by_cases h4 : isPascalCase n
      · have h' : name = n ∨ name ∈ localExportNames rest := by
          simpa [localExportNames, h4] using h
        rcases h' with h1 | h2
        · exact h1 ▸ h4
        · exact ih h2
      · exact ih (by simpa [localExportNames, h4] using h)
    | exportDefaultFun n =>
      cases n with
      | none => exact ih (by simpa [localExportNames] using h)
      | some n' =>
        by_cases h4 : isPascalCase n'
        · have h' : name = n' ∨ name ∈ localExportNames rest := by
            simpa [localExportNames, h4] using h
          rcases h' with h1 | h2
          · exact h1 ▸ h4
          · exact ih h2
        · exact ih (by simpa [localExportNames, h4] using h)
    | funDecl n => exact ih (by simpa [localExportNames] using h)
    | varDecl n ik => exact ih (by simpa [localExportNames] using h)
    | classDecl n => exact ih (by simpa [localExportNames] using h)
    | exportAll src => exact ih (by simpa [localExportNames] using h)
    | otherStmt => exact ih (by simpa [localExportNames] using h)

/-- Unfold one specifier of `specLocalNames`. -/
theorem specLocalNames_cons (sp : ExportSpec) (rest : List ExportSpec) :
    specLocalNames (sp :: rest) =
      (if !sp.isTypeOnly && isPascalCase sp.exported then [sp.exported] else []) ++
        specLocalNames rest := by
  by_cases h3 : sp.isTypeOnly <;> by_cases h4 : isPascalCase sp.exported <;>
    simp [specLocalNames, List.filterMap_cons, h3, h4]

/-- Lookup through the specifier fold of a `from`-less
`ExportNamedDeclaration`: every collected name maps to the current file. -/
theorem lookupA_specFold (specs : List ExportSpec) (fPath : String)
    (acc : AListSS) (name : String) :
    lookupA
      (specs.foldl
        (fun a spec =>
          if spec.isTypeOnly then a
          else if isPascalCase spec.exported then mapSet a spec.exported fPath
          else a)
        acc) name =
      if name ∈ specLocalNames specs then some fPath else lookupA acc name := by
  induction specs generalizing acc with
  | nil => simp [specLocalNames]
  | cons sp rest ih =>
    rw [List.foldl_cons, ih, specLocalNames_cons]
    by_cases h3 : sp.isTypeOnly
    · simp [h3]
    · by_cases h4 : isPascalCase sp.exported
      · by_cases hrest : name ∈ specLocalNames rest
        · simp [h3, h4, hrest]
        · by_cases hn : sp.exported = name
          · have h4' : isPascalCase name = true := hn ▸ h4
            rw [if_neg hrest, if_neg h3, if_pos h4, hn, lookupA_mapSet_self,
              if_pos (by simp [h3, h4, h4', hn])]
          · rw [if_neg hrest, if_neg h3, if_pos h4,
              lookupA_mapSet_ne acc name sp.exported fPath hn,
              if_neg (by simp [h3, h4, hrest]; exact fun he => hn he.symm)]
      · simp [h3, h4]

/-- Lookup through the synchronous traversal of a local-only statement
list: exactly the collected local PascalCase names are bound, all to the
current file's path. -/
theorem lookupA_astPhase_localOnly (stmts : List Stmt) (fPath : String)
    (allFiles : List FileInfo) (acc : AListSS) (name : String)
    (h : ∀ s ∈ stmts, stmtLocalOnly s = true) :
    lookupA (astPhase fPath allFiles stmts acc) name =
      if name ∈ localExportNames stmts then some fPath else lookupA acc name := by
  induction stmts generalizing acc with
  | nil => simp [astPhase, localExportNames]
  | cons s rest ih =>
    have hs := h s (List.mem_cons_self s rest)
    have hrest := fun t ht => h t (List.mem_cons_of_mem s ht)
    rw [show astPhase fPath allFiles (s :: rest) acc =
          astPhase fPath allFiles rest (astStep fPath allFiles acc s) from rfl,
      ih _ hrest]
    cases s with
    | exportNamed specs src typeKind =>
      cases src with
      | some _ => simp [stmtLocalOnly] at hs
      | none =>
        by_cases ht : typeKind
        · simp [astStep, ht, localExportNames]
        · have hstep : astStep fPath allFiles acc (.exportNamed specs none typeKind) =
              specs.foldl
                (fun a spec =>
                  if spec.isTypeOnly then a
                  else if isPascalCase spec.exported then mapSet a spec.exported fPath
                  else a)
                acc := by
            simp [astStep, ht]
          rw [hstep, lookupA_specFold,
            show localExportNames (Stmt.exportNamed specs none typeKind :: rest) =
              specLocalNames specs ++ localExportNames rest from by
                simp [localExportNames, ht]]
          by_cases h1 : name ∈ localExportNames rest <;>
            by_cases h2 : name ∈ specLocalNames specs <;>
            simp [h1, h2, List.mem_append]
    | exportDefaultIdent n =>
      by_cases h4 : isPascalCase n
      · have hl : localExportNames (Stmt.exportDefaultIdent n :: rest) =
            n :: localExportNames rest := by
          simp [localExportNames, h4]
        rw [hl, show astStep fPath allFiles acc (.exportDefaultIdent n) =
              mapSet acc n fPath from by simp [astStep, h4]]
        by_cases hn : n = name
        · by_cases h1 : name ∈ localExportNames rest <;>
            simp [h1, hn, lookupA_mapSet_self]
        · by_cases h1 : name ∈ localExportNames rest <;>
            simp [h1, hn, Ne.symm hn, lookupA_mapSet_ne acc name n fPath hn]
      · have hl : localExportNames (Stmt.exportDefaultIdent n :: rest) =
            localExportNames rest := by
          simp [localExportNames, h4]
        rw [hl, show astStep fPath allFiles acc (.exportDefaultIdent n) = acc from by
          simp [astStep, h4]]
    | exportDefaultFun n =>
      cases n with
      | none => simp [astStep, localExportNames]
      | some n' =>
        by_cases h4 : isPascalCase n'
        · have hl : localExportNames (Stmt.exportDefaultFun (some n') :: rest) =
              n' :: localExportNames rest := by
            simp [localExportNames, h4]
          rw [hl, show astStep fPath allFiles acc (.exportDefaultFun (some n')) =
                mapSet acc n' fPath from by simp [astStep, h4]]
          by_cases hn : n' = name
          · by_cases h1 : name ∈ localExportNames rest <;>
              simp [h1, hn, lookupA_mapSet_self]
          · by_cases h1 : name ∈ localExportNames rest <;>
              simp [h1, hn, Ne.symm hn, lookupA_mapSet_ne acc name n' fPath hn]
        · have hl : localExportNames (Stmt.exportDefaultFun (some n') :: rest) =
              localExportNames rest := by
            simp [localExportNames, h4]
          rw [hl, show astStep fPath allFiles acc (.exportDefaultFun (some n')) = acc
            from by simp [astStep, h4]]
    | funDecl n => simp [astStep, localExportNames]
    | varDecl n ik => simp [astStep, localExportNames]
    | classDecl n => simp [astStep, localExportNames]
    | exportAll src => simp [stmtLocalOnly] at hs
    | otherStmt => simp [astStep, localExportNames]

/-! ## Claim C3 -/

/-- C3, counterexample.  The claim says the map for a local-only entry file
equals the set of its PascalCase exported names, mapped to the entry file.
For the entry file `/src/index.ts` with content `export { FooConfig }` —
a single local brace export and no re-export — `FooConfig` is a PascalCase
exported name, yet the resulting map does not bind it: the extractor's final
filter rejects it through `isLikelyComponent` (`/Config$/`). -/
theorem c3_counterexample_likely_filter :
    (∀ s ∈ ([Stmt.exportNamed [⟨"FooConfig", "FooConfig", false⟩] none false] :
        List Stmt), stmtLocalOnly s = true) ∧
    "FooConfig" ∈
      localExportNames [Stmt.exportNamed [⟨"FooConfig", "FooConfig", false⟩] none false] ∧
    isPascalCase "FooConfig" = true ∧
    lookupA
      (extractComponentInfoFromIndex 1
        ⟨"/src/index.ts", "export { FooConfig }",
          [Stmt.exportNamed [⟨"FooConfig", "FooConfig", false⟩] none false]⟩
        [⟨"/src/index.ts", "export { FooConfig }",
          [Stmt.exportNamed [⟨"FooConfig", "FooConfig", false⟩] none false]⟩])
      "FooConfig" = none := by
  decide

/-- C3, amended.  For an entry file whose traversal events are all local
(no `from`-clause exports, no wildcard re-exports), the resulting
`ComponentNameMap` binds exactly the PascalCase names collected from
`export { ... }` specifiers and default exports **that additionally pass the
`isLikelyComponent` content filter**, each to the entry file's own path —
not the full set of PascalCase exported names, as the original claim
states. -/
theorem c3_amended_localOnly_map (fuel : Nat) (f : FileInfo)
    (allFiles : List FileInfo) (name : String)
    (h : ∀ s ∈ f.stmts, stmtLocalOnly s = true) :
    lookupA (extractComponentInfoFromIndex (fuel + 1) f allFiles) name =
      if name ∈ localExportNames f.stmts ∧ isLikelyComponent name f.content = true
      then some f.path else none := by
  rw [extract_succ]
  have hstars : starMapsOf fuel f allFiles = [] := by
    simp [starMapsOf, starSources_eq_nil_of_localOnly f.stmts h]
  rw [hstars]
  simp only [List.foldl_nil]
  rw [lookupA_filterPhase _ _ _
    (noDupKeys_astPhase f.path allFiles f.stmts [] (by simp [NoDupKeys, keysOf])),
    lookupA_astPhase_localOnly f.stmts f.path allFiles [] name h]
  by_cases hmem : name ∈ localExportNames f.stmts
  · have hpas := isPascalCase_of_mem_localExportNames f.stmts name hmem
    by_cases hlik : isLikelyComponent name f.content = true
    · simp [hmem, hlik, filterPred, hpas]
    · simp [hmem, hlik, filterPred, hpas]
  · simp [hmem, lookupA]

/-- C3, witness: a local-only entry file exporting `Button` does map
`Button` to the entry path. -/
theorem c3_amended_localOnly_map_witness :
    lookupA
      (extractComponentInfoFromIndex 1
        ⟨"/src/index.ts", "export { Button }",
          [Stmt.exportNamed [⟨"Button", "Button", false⟩] none false]⟩
        [⟨"/src/index.ts", "export { Button }",
          [Stmt.exportNamed [⟨"Button", "Button", false⟩] none false]⟩])
      "Button" = some "/src/index.ts" := by
  rw [c3_amended_localOnly_map 0
    ⟨"/src/index.ts", "export { Button }",
      [Stmt.exportNamed [⟨"Button", "Button", false⟩] none false]⟩
    [⟨"/src/index.ts", "export { Button }",
      [Stmt.exportNamed [⟨"Button", "Button", false⟩] none false]⟩]
    "Button" (by decide)]
  decide

/-! ## Claim C4 -/

/-- A first-binding lookup hit is a member of the association list. -/
theorem mem_of_lookupA_eq_some (m : AListSS) (k v : String)
    (h : lookupA m k = some v) : (k, v) ∈ m := by
  induction m with
  | nil => simp [lookupA] at h
  | cons b rest ih =>
    by_cases hb : b.1 = k
    · rw [lookupA, if_pos hb] at h
      have hbv : b = (k, v) := by
        obtain ⟨b1, b2⟩ := b
        simp only at h hb
        injection h with h2
        rw [hb, h2]
      rw [hbv]
      exact List.mem_cons_self _ _
    · rw [lookupA, if_neg hb] at h
      exact List.mem_cons_of_mem b (ih h)

/-- A key bound in one of a list of maps is bound after merging them all. -/
theorem lastStarLookup_isSome_of_mem (maps : List AListSS) (m : AListSS)
    (k : String) (hm : m ∈ maps) (h : (lookupLast m k).isSome) :
    (lastStarLookup maps k).isSome := by
  induction maps with
  | nil => simp at hm
  | cons m0 rest ih =>
    rcases List.mem_cons.mp hm with h0 | hrest
    · cases hr : lastStarLookup rest k with
      | some v => simp [lastStarLookup, hr]
      | none =>
        have h' : (lookupLast m0 k).isSome := h0 ▸ h
        simpa [lastStarLookup, hr] using h'
    · have hih := ih hrest
      cases hr : lastStarLookup rest k with
      | some v => simp [lastStarLookup, hr]
      | none => rw [hr] at hih; simp at hih

/-- An `export * from` statement contributes its source to `starSources`. -/
theorem mem_starSources (stmts : List Stmt) (src : String)
    (h : Stmt.exportAll src ∈ stmts) : src ∈ starSources stmts := by
  simp only [starSources, List.mem_filterMap]
  exact ⟨Stmt.exportAll src, h, rfl⟩

/-- Every key of an extractor result is PascalCase and passes the
likelihood filter for the extracted file's content. -/
theorem extract_lookup_filterPred (fuel : Nat) (f : FileInfo)
    (allFiles : List FileInfo) (name : String)
    (h : (lookupA (extractComponentInfoFromIndex fuel f allFiles) name).isSome) :
    filterPred f.content name = true := by
  cases fuel with
  | zero => simp [extractComponentInfoFromIndex, lookupA] at h
  | succ fuel =>
    rw [extract_succ] at h
    exact filterPhase_keys_pred _ _ _ h

/-- C4, counterexample.  The claim says the entry map contains **every**
PascalCase name defined or re-exported inside the wildcard target.  Entry
`/src/index.ts` is `export * from './sub'`; `./sub` resolves to
`/src/sub.ts`, which locally exports the PascalCase name `FooConfig` — yet
the entry's map is empty: the recursive extraction filters `FooConfig` out
through `isLikelyComponent` (`/Config$/`). -/
theorem c4_counterexample_star_filter :
    Stmt.exportAll "./sub" ∈
      ([Stmt.exportAll "./sub"] : List Stmt) ∧
    resolveFilePath "./sub" "/src/index.ts"
      [⟨"/src/index.ts", "export * from './sub'", [Stmt.exportAll "./sub"]⟩,
       ⟨"/src/sub.ts", "export { FooConfig }",
         [Stmt.exportNamed [⟨"FooConfig", "FooConfig", false⟩] none false]⟩] =
      some "/src/sub.ts" ∧
    "FooConfig" ∈
      localExportNames [Stmt.exportNamed [⟨"FooConfig", "FooConfig", false⟩] none false] ∧
    isPascalCase "FooConfig" = true ∧
    lookupA
      (extractComponentInfoFromIndex 2
        ⟨"/src/index.ts", "export * from './sub'", [Stmt.exportAll "./sub"]⟩
        [⟨"/src/index.ts", "export * from './sub'", [Stmt.exportAll "./sub"]⟩,
         ⟨"/src/sub.ts", "export { FooConfig }",
           [Stmt.exportNamed [⟨"FooConfig", "FooConfig", false⟩] none false]⟩])
      "FooConfig" = none := by
  decide

/-- C4, amended.  If the entry file contains `export * from src` and `src`
resolves to a file `sub` of the Source Index, then every name bound in the
map recursively extracted from `sub` (its defined and re-exported names that
themselves survive the PascalCase/likelihood filters at their own level,
transitively through nested wildcards) is contained in the entry's map,
provided it also passes the entry file's `isLikelyComponent` content filter
— names failing a filter at any level are dropped, contrary to the original
claim. -/
theorem c4_amended_star_containment (fuel : Nat) (f sub : FileInfo)
    (allFiles : List FileInfo) (src name : String)
    (hstmt : Stmt.exportAll src ∈ f.stmts)
    (hres : resolveFilePath src f.path allFiles = some sub.path)
    (hfind : findFile allFiles sub.path = some sub)
    (hmem : (lookupA (extractComponentInfoFromIndex fuel sub allFiles) name).isSome = true)
    (hlik : isLikelyComponent name f.content = true) :
    (lookupA (extractComponentInfoFromIndex (fuel + 1) f allFiles) name).isSome = true := by
  have hpas : isPascalCase name = true := by
    have := extract_lookup_filterPred fuel sub allFiles name hmem
    simp [filterPred] at this
    exact this.1
  have hstar : extractComponentsFromReExportWithPaths fuel src f.path allFiles =
      extractComponentInfoFromIndex fuel sub allFiles := by
    simp [extractComponentsFromReExportWithPaths, hres, hfind]
  have hmaps : extractComponentInfoFromIndex fuel sub allFiles ∈
      starMapsOf fuel f allFiles := by
    rw [starMapsOf]
    exact List.mem_map.mpr ⟨src, mem_starSources f.stmts src hstmt, hstar⟩
  obtain ⟨v, hv⟩ := Option.isSome_iff_exists.mp hmem
  have hlast : (lastStarLookup (starMapsOf fuel f allFiles) name).isSome :=
    lastStarLookup_isSome_of_mem _ _ name hmaps
      (lookupLast_isSome_of_mem _ name v
        (mem_of_lookupA_eq_some _ name v hv))
  rw [extract_succ]
  have hnd : NoDupKeys
      ((starMapsOf fuel f allFiles).foldl mergeMaps
        (astPhase f.path allFiles f.stmts [])) :=
    noDupKeys_foldl mergeMaps (fun a m ha => noDupKeys_mergeMaps a m ha) _ _
      (noDupKeys_astPhase f.path allFiles f.stmts [] (by simp [NoDupKeys, keysOf]))
  rw [lookupA_filterPhase _ _ _ hnd, lookupA_foldl_mergeMaps]
  obtain ⟨w, hw⟩ := Option.isSome_iff_exists.mp hlast
  rw [hw]
  simp [filterPred, hpas, hlik]

/-- C4, witness: a wildcard re-export of a file locally exporting `Widget`
does surface `Widget` in the entry map. -/
theorem c4_amended_star_containment_witness :
    (lookupA
      (extractComponentInfoFromIndex 2
        ⟨"/src/index.ts", "export * from './sub'", [Stmt.exportAll "./sub"]⟩
        [⟨"/src/index.ts", "export * from './sub'", [Stmt.exportAll "./sub"]⟩,
         ⟨"/src/sub.ts", "export { Widget }",
           [Stmt.exportNamed [⟨"Widget", "Widget", false⟩] none false]⟩])
      "Widget").isSome = true := by
  exact c4_amended_star_containment 1
    ⟨"/src/index.ts", "export * from './sub'", [Stmt.exportAll "./sub"]⟩
    ⟨"/src/sub.ts", "export { Widget }",
      [Stmt.exportNamed [⟨"Widget", "Widget", false⟩] none false]⟩
    [⟨"/src/index.ts", "export * from './sub'", [Stmt.exportAll "./sub"]⟩,
     ⟨"/src/sub.ts", "export { Widget }",
       [Stmt.exportNamed [⟨"Widget", "Widget", false⟩] none false]⟩]
    "./sub" "Widget" (by decide) (by decide) (by decide) (by decide) (by decide)

/-! ## Claim C9 -/

/-- C9.  When the wildcard (`export * from`) expansions of an entry file
supply a binding for `name` (jointly yielding value `p`, later statements
winning), the final `ComponentNameMap` maps `name` to `p` — regardless of
the statement list, in particular regardless of whether a named, local or
default export of the same `name` appears before or after the wildcard in
the file: star maps are awaited and merged only after the synchronous
traversal has recorded all other exports, so the wildcard-derived path
always overwrites. -/
theorem c9_wildcard_path_wins (fuel : Nat) (f : FileInfo)
    (allFiles : List FileInfo) (name p : String)
    (hstar : lastStarLookup (starMapsOf fuel f allFiles) name = some p)
    (hpas : isPascalCase name = true)
    (hlik : isLikelyComponent name f.content = true) :
    lookupA (extractComponentInfoFromIndex (fuel + 1) f allFiles) name = some p := by
  rw [extract_succ]
  have hnd : NoDupKeys
      ((starMapsOf fuel f allFiles).foldl mergeMaps
        (astPhase f.path allFiles f.stmts [])) :=
    noDupKeys_foldl mergeMaps (fun a m ha => noDupKeys_mergeMaps a m ha) _ _
      (noDupKeys_astPhase f.path allFiles f.stmts [] (by simp [NoDupKeys, keysOf]))
  rw [lookupA_filterPhase _ _ _ hnd, lookupA_foldl_mergeMaps, hstar]
  simp [filterPred, hpas, hlik]

/-- C9, witness: an entry file that both locally exports `Widget` (first
statement, which alone would bind it to `/src/index.ts`) and wildcard
re-exports `./sub` (second statement) ends up binding `Widget` to the
wildcard-derived `/src/sub.ts`. -/
theorem c9_wildcard_path_wins_witness :
    lookupA
      (extractComponentInfoFromIndex 2
        ⟨"/src/index.ts", "export { Widget }\nexport * from './sub'",
          [Stmt.exportNamed [⟨"Widget", "Widget", false⟩] none false,
           Stmt.exportAll "./sub"]⟩
        [⟨"/src/index.ts", "export { Widget }\nexport * from './sub'",
          [Stmt.exportNamed [⟨"Widget", "Widget", false⟩] none false,
           Stmt.exportAll "./sub"]⟩,
         ⟨"/src/sub.ts", "export { Widget }",
           [Stmt.exportNamed [⟨"Widget", "Widget", false⟩] none false]⟩])
      "Widget" = some "/src/sub.ts" := by
  exact c9_wildcard_path_wins 1
    ⟨"/src/index.ts", "export { Widget }\nexport * from './sub'",
      [Stmt.exportNamed [⟨"Widget", "Widget", false⟩] none false,
       Stmt.exportAll "./sub"]⟩
    [⟨"/src/index.ts", "export { Widget }\nexport * from './sub'",
      [Stmt.exportNamed [⟨"Widget", "Widget", false⟩] none false,
       Stmt.exportAll "./sub"]⟩,
     ⟨"/src/sub.ts", "export { Widget }",
       [Stmt.exportNamed [⟨"Widget", "Widget", false⟩] none false]⟩]
    "Widget" "/src/sub.ts" (by decide) (by decide) (by decide)

/-! ## Claim C1 -/

/-- C1, counterexample.  The claim says that on a two-file re-export cycle
the Tracer returns one of the visited files rather than omitting the
component.  For the concrete cycle `/a.ts` re-exports `X` from `/b.ts` and
`/b.ts` re-exports `X` from `/a.ts`, `traceComponentImplementation` returns
`none`: the visited-set check returns `null`, the `null` propagates up the
hop recursion, and `identifyComponentsFromIndex` therefore omits the
component (`未能追踪到组件`), with no visited-file fallback. -/
theorem c1_counterexample_cycle_omits :
    traceComponentImplementation
      [⟨"/a.ts", "export { X } from './b'",
        [Stmt.exportNamed [⟨"X", "X", false⟩] (some "./b") false]⟩,
       ⟨"/b.ts", "export { X } from './a'",
        [Stmt.exportNamed [⟨"X", "X", false⟩] (some "./a") false]⟩]
      "X" "/a.ts" = none := by rfl

/-- C1, amended.  For every name `x` and pair of files `a`, `b` of the
Source Index forming a pure re-export cycle (`a` re-exports `x` from `b`
and `b` re-exports `x` from `a`), the Tracer terminates well within the
depth cap — the visited-path check cuts the cycle on the third hop — but it
returns `none` rather than any visited file, so the component is omitted;
the last-visited-file fallback of the original claim applies only to the
nothing-matched case, not to the revisit or depth-cap cases, which return
`null`. -/
theorem c1_amended_cycle_trace_omits (allFiles : List FileInfo)
    (a b : FileInfo) (x srcB srcA : String) (ta tb ka kb : Bool)
    (ha : a.stmts = [Stmt.exportNamed [⟨x, x, ta⟩] (some srcB) ka])
    (hb : b.stmts = [Stmt.exportNamed [⟨x, x, tb⟩] (some srcA) kb])
    (hresB : resolveFilePath srcB a.path allFiles = some b.path)
    (hresA : resolveFilePath srcA b.path allFiles = some a.path)
    (hfa : findFile allFiles a.path = some a)
    (hfb : findFile allFiles b.path = some b)
    (hne : a.path ≠ b.path)
    (hxd : x ≠ "default") :
    traceComponentImplementation allFiles x a.path = none := by
  have hscanA : ∀ acc : ScanAcc,
      scanStmts allFiles x a.path a.stmts acc = { acc with next := some (x, b.path) } := by
    intro acc
    rw [ha]
    simp [scanStmts, scanStmt, hresB, hxd]
  have hscanB : ∀ acc : ScanAcc,
      scanStmts allFiles x b.path b.stmts acc = { acc with next := some (x, a.path) } := by
    intro acc
    rw [hb]
    simp [scanStmts, scanStmt, hresA, hxd]
  have hmemb : b.path ∉ [a.path] := by
    simpa using fun he => hne he.symm
  have habne : b ∉ [a] := by
    simp only [List.mem_singleton]
    intro he
    exact hne (by rw [he])
  have h2 : traceImplementation allFiles 9 x a.path 2 ⟨[a.path, b.path], [a, b]⟩ =
      (none, ⟨[a.path, b.path], [a, b]⟩) := by
    simp [traceImplementation]
  have h1 : traceImplementation allFiles 10 x b.path 1 ⟨[a.path], [a]⟩ =
      (none, ⟨[a.path, b.path], [a, b]⟩) := by
    rw [show traceImplementation allFiles 10 x b.path 1 ⟨[a.path], [a]⟩ =
        traceImplementation allFiles (9 + 1) x b.path 1 ⟨[a.path], [a]⟩ from rfl,
      traceImplementation]
    simp only [hmemb, hfb, hscanB, addDep, habne]
    simp [h2]
  have h0 : traceImplementation allFiles 11 x a.path 0 ⟨[], []⟩ =
      (none, ⟨[a.path, b.path], [a, b]⟩) := by
    rw [show traceImplementation allFiles 11 x a.path 0 ⟨[], []⟩ =
        traceImplementation allFiles (10 + 1) x a.path 0 ⟨[], []⟩ from rfl,
      traceImplementation]
    simp only [hfa, hscanA, addDep]
    simp [h1]
  rw [traceComponentImplementation, h0]

/-- C1, witness for the amended claim at a concrete two-file cycle. -/
theorem c1_amended_cycle_trace_omits_witness :
    traceComponentImplementation
      [⟨"/lib/a.ts", "export { Card } from './b'",
        [Stmt.exportNamed [⟨"Card", "Card", false⟩] (some "./b") false]⟩,
       ⟨"/lib/b.ts", "export { Card } from './a'",
        [Stmt.exportNamed [⟨"Card", "Card", false⟩] (some "./a") false]⟩]
      "Card" "/lib/a.ts" = none :=
  c1_amended_cycle_trace_omits
    [⟨"/lib/a.ts", "export { Card } from './b'",
      [Stmt.exportNamed [⟨"Card", "Card", false⟩] (some "./b") false]⟩,
     ⟨"/lib/b.ts", "export { Card } from './a'",
      [Stmt.exportNamed [⟨"Card", "Card", false⟩] (some "./a") false]⟩]
    ⟨"/lib/a.ts", "export { Card } from './b'",
      [Stmt.exportNamed [⟨"Card", "Card", false⟩] (some "./b") false]⟩
    ⟨"/lib/b.ts", "export { Card } from './a'",
      [Stmt.exportNamed [⟨"Card", "Card", false⟩] (some "./a") false]⟩
    "Card" "./b" "./a" false false false false
    (by rfl) (by rfl) (by decide) (by decide) (by decide) (by decide)
    (by decide) (by decide)

/-! ## Claim C5 -/

/-- C5.  A file `a` whose single statement is
`export { default as foo } from src`, where `src` resolves to the path of a
file `bar` of the Source Index, makes the Tracer resolve `foo` directly to
`bar` in a single hop: the result's implementation file is `bar` for
**arbitrary** contents of `bar` (no declaration named `foo` is required in
it), and the accumulated dependencies are exactly `[a, bar]` — `bar`'s own
statements are never scanned, so no further hop is traced. -/
theorem c5_default_as_resolves_directly (allFiles : List FileInfo)
    (a bar : FileInfo) (foo src : String) (tf tk : Bool)
    (ha : a.stmts = [Stmt.exportNamed [⟨foo, "default", tf⟩] (some src) tk])
    (hres : resolveFilePath src a.path allFiles = some bar.path)
    (hfa : findFile allFiles a.path = some a)
    (hfbar : findFile allFiles bar.path = some bar)
    (hne : a.path ≠ bar.path) :
    traceComponentImplementation allFiles foo a.path =
      some ⟨foo, bar.content, bar.path, bar, [a, bar]⟩ := by
  have habne : bar ∉ [a] := by
    simp only [List.mem_singleton]
    intro he
    exact hne (by rw [he])
  have hscanA : ∀ acc : ScanAcc,
      scanStmts allFiles foo a.path a.stmts acc =
        { acc with deps := addDep acc.deps bar, defAs := some bar, found := true } := by
    intro acc
    rw [ha]
    simp [scanStmts, scanStmt, hres, hfbar]
  have hbne : ¬bar = a := fun he => hne (by rw [he])
  have h0 : traceImplementation allFiles 11 foo a.path 0 ⟨[], []⟩ =
      (some bar, ⟨[a.path], [a, bar]⟩) := by
    rw [show traceImplementation allFiles 11 foo a.path 0 ⟨[], []⟩ =
        traceImplementation allFiles (10 + 1) foo a.path 0 ⟨[], []⟩ from rfl,
      traceImplementation]
    simp [hfa, hscanA, addDep, habne, hbne]
  rw [traceComponentImplementation, h0]

/-- C5, witness: `export { default as Foo } from './Bar'` resolves `Foo` to
`/src/Bar.tsx` even though that file contains no declaration at all. -/
theorem c5_default_as_resolves_directly_witness :
    traceComponentImplementation
      [⟨"/src/index.ts", "export { default as Foo } from './Bar'",
        [Stmt.exportNamed [⟨"Foo", "default", false⟩] (some "./Bar") false]⟩,
       ⟨"/src/Bar.tsx", "export default whatever", [Stmt.otherStmt]⟩]
      "Foo" "/src/index.ts" =
      some ⟨"Foo", "export default whatever", "/src/Bar.tsx",
        ⟨"/src/Bar.tsx", "export default whatever", [Stmt.otherStmt]⟩,
        [⟨"/src/index.ts", "export { default as Foo } from './Bar'",
          [Stmt.exportNamed [⟨"Foo", "default", false⟩] (some "./Bar") false]⟩,
         ⟨"/src/Bar.tsx", "export default whatever", [Stmt.otherStmt]⟩]⟩ :=
  c5_default_as_resolves_directly
    [⟨"/src/index.ts", "export { default as Foo } from './Bar'",
      [Stmt.exportNamed [⟨"Foo", "default", false⟩] (some "./Bar") false]⟩,
     ⟨"/src/Bar.tsx", "export default whatever", [Stmt.otherStmt]⟩]
    ⟨"/src/index.ts", "export { default as Foo } from './Bar'",
      [Stmt.exportNamed [⟨"Foo", "default", false⟩] (some "./Bar") false]⟩
    ⟨"/src/Bar.tsx", "export default whatever", [Stmt.otherStmt]⟩
    "Foo" "./Bar" false false
    (by rfl) (by decide) (by decide) (by decide) (by decide)

/-! ## Claim C6 -/

/-- C6.  For a three-hop chain — `a` re-exports `x` from `b`, `b`
re-exports `x` from `c`, and `c` declares a function named `x` — the Tracer
started at `(x, a)` resolves to `c`'s file, and the accumulated dependency
set of visited files is exactly `[a, b, c]`. -/
theorem c6_three_hop_chain_resolves (allFiles : List FileInfo)
    (a b c : FileInfo) (x srcB srcC : String) (ta tb ka kb : Bool)
    (ha : a.stmts = [Stmt.exportNamed [⟨x, x, ta⟩] (some srcB) ka])
    (hb : b.stmts = [Stmt.exportNamed [⟨x, x, tb⟩] (some srcC) kb])
    (hc : c.stmts = [Stmt.funDecl x])
    (hresB : resolveFilePath srcB a.path allFiles = some b.path)
    (hresC : resolveFilePath srcC b.path allFiles = some c.path)
    (hfa : findFile allFiles a.path = some a)
    (hfb : findFile allFiles b.path = some b)
    (hfc : findFile allFiles c.path = some c)
    (hab : a.path ≠ b.path) (hac : a.path ≠ c.path) (hbc : b.path ≠ c.path)
    (hxd : x ≠ "default") :
    traceComponentImplementation allFiles x a.path =
      some ⟨x, c.content, c.path, c, [a, b, c]⟩ := by
  have hscanA : ∀ acc : ScanAcc,
      scanStmts allFiles x a.path a.stmts acc = { acc with next := some (x, b.path) } := by
    intro acc
    rw [ha]
    simp [scanStmts, scanStmt, hresB, hxd]
  have hscanB : ∀ acc : ScanAcc,
      scanStmts allFiles x b.path b.stmts acc = { acc with next := some (x, c.path) } := by
    intro acc
    rw [hb]
    simp [scanStmts, scanStmt, hresC, hxd]
  have hscanC : ∀ acc : ScanAcc,
      scanStmts allFiles x c.path c.stmts acc = { acc with found := true } := by
    intro acc
    rw [hc]
    simp [scanStmts, scanStmt]
  have hmemb : b.path ∉ [a.path] := by
    simpa using fun he => hab he.symm
  have hmemc : c.path ∉ [a.path, b.path] := by
    intro h
    simp only [List.mem_cons, List.not_mem_nil, or_false] at h
    rcases h with h | h
    · exact hac h.symm
    · exact hbc h.symm
  have habne : b ∉ [a] := by
    simp only [List.mem_singleton]
    intro he
    exact hab (by rw [he])
  have hcne : c ∉ [a, b] := by
    intro h
    simp only [List.mem_cons, List.not_mem_nil, or_false] at h
    rcases h with h | h
    · exact hac (by rw [h])
    · exact hbc (by rw [h])
  have h2 : traceImplementation allFiles 9 x c.path 2 ⟨[a.path, b.path], [a, b]⟩ =
      (some c, ⟨[a.path, b.path, c.path], [a, b, c]⟩) := by
    rw [show traceImplementation allFiles 9 x c.path 2 ⟨[a.path, b.path], [a, b]⟩ =
        traceImplementation allFiles (8 + 1) x c.path 2 ⟨[a.path, b.path], [a, b]⟩
        from rfl,
      traceImplementation]
    simp [hmemc, hfc, hscanC, addDep, hcne]
  have h1 : traceImplementation allFiles 10 x b.path 1 ⟨[a.path], [a]⟩ =
      (some c, ⟨[a.path, b.path, c.path], [a, b, c]⟩) := by
    rw [show traceImplementation allFiles 10 x b.path 1 ⟨[a.path], [a]⟩ =
        traceImplementation allFiles (9 + 1) x b.path 1 ⟨[a.path], [a]⟩ from rfl,
      traceImplementation]
    simp only [hmemb, hfb, hscanB, addDep, habne]
    simp [h2]
  have h0 : traceImplementation allFiles 11 x a.path 0 ⟨[], []⟩ =
      (some c, ⟨[a.path, b.path, c.path], [a, b, c]⟩) := by
    rw [show traceImplementation allFiles 11 x a.path 0 ⟨[], []⟩ =
        traceImplementation allFiles (10 + 1) x a.path 0 ⟨[], []⟩ from rfl,
      traceImplementation]
    simp only [hfa, hscanA, addDep]
    simp [h1]
  rw [traceComponentImplementation, h0]

/-- C6, witness at a concrete three-file chain. -/
theorem c6_three_hop_chain_resolves_witness :
    traceComponentImplementation
      [⟨"/p/a.ts", "export { Tag } from './b'",
        [Stmt.exportNamed [⟨"Tag", "Tag", false⟩] (some "./b") false]⟩,
       ⟨"/p/b.ts", "export { Tag } from './c'",
        [Stmt.exportNamed [⟨"Tag", "Tag", false⟩] (some "./c") false]⟩,
       ⟨"/p/c.ts", "function Tag() . ", [Stmt.funDecl "Tag"]⟩]
      "Tag" "/p/a.ts" =
      some ⟨"Tag", "function Tag() . ", "/p/c.ts",
        ⟨"/p/c.ts", "function Tag() . ", [Stmt.funDecl "Tag"]⟩,
        [⟨"/p/a.ts", "export { Tag } from './b'",
          [Stmt.exportNamed [⟨"Tag", "Tag", false⟩] (some "./b") false]⟩,
         ⟨"/p/b.ts", "export { Tag } from './c'",
          [Stmt.exportNamed [⟨"Tag", "Tag", false⟩] (some "./c") false]⟩,
         ⟨"/p/c.ts", "function Tag() . ", [Stmt.funDecl "Tag"]⟩]⟩ :=
  c6_three_hop_chain_resolves
    [⟨"/p/a.ts", "export { Tag } from './b'",
      [Stmt.exportNamed [⟨"Tag", "Tag", false⟩] (some "./b") false]⟩,
     ⟨"/p/b.ts", "export { Tag } from './c'",
      [Stmt.exportNamed [⟨"Tag", "Tag", false⟩] (some "./c") false]⟩,
     ⟨"/p/c.ts", "function Tag() . ", [Stmt.funDecl "Tag"]⟩]
    ⟨"/p/a.ts", "export { Tag } from './b'",
      [Stmt.exportNamed [⟨"Tag", "Tag", false⟩] (some "./b") false]⟩
    ⟨"/p/b.ts", "export { Tag } from './c'",
      [Stmt.exportNamed [⟨"Tag", "Tag", false⟩] (some "./c") false]⟩
    ⟨"/p/c.ts", "function Tag() . ", [Stmt.funDecl "Tag"]⟩
    "Tag" "./b" "./c" false false false false
    (by rfl) (by rfl) (by rfl) (by decide) (by decide) (by decide) (by decide)
    (by decide) (by decide) (by decide) (by decide) (by decide)

/-! ## Claim C2 -/

/-- Generic fold invariant, used for the builder's per-node dependency
loop. -/
theorem foldlPreserves {α σ : Type} (P : σ → Prop) (f : σ → α → σ)
    (h : ∀ s a, P s → P (f s a)) :
    ∀ (l : List α) (s : σ), P s → P (l.foldl f s) := by
  intro l
  induction l with
  | nil => intro s hs; simpa using hs
  | cons a rest ih => intro s hs; exact ih _ (h s a hs)

/-- Truncated snippet text never exceeds the display ceiling plus the fixed
marker. -/
theorem truncCode_length_le (code : String) :
    (truncCode code).length ≤ 3000 + truncMark.length := by
  unfold truncCode
  by_cases h : code.length > 3000
  · rw [if_pos h, String.length_append]
    have h2 : (strTake code 3000).length ≤ 3000 := by
      rw [show strTake code 3000 = String.mk (code.data.take 3000) from rfl,
        String.length_mk]
      exact List.length_take_le 3000 code.data
    omega
  · rw [if_neg h]
    omega

/-- Every source-carrying snippet the builder's walk accumulates has a body
of the truncated shape, hence bounded length. -/
theorem collectDependencies_snippet_inv (allComps : List Comp) (fuel : Nat) :
    ∀ (c : CompLite) (depth : Nat) (st : BuildState),
      (∀ s ∈ st.snippets, ∀ d n b, s = Snippet.text d n b →
        b.length ≤ 3000 + truncMark.length) →
      ∀ s ∈ (collectDependencies allComps fuel c depth st).snippets,
        ∀ d n b, s = Snippet.text d n b → b.length ≤ 3000 + truncMark.length := by
  induction fuel with
  | zero =>
    intro c depth st hst
    have h0 : collectDependencies allComps 0 c depth st = st := rfl
    rw [h0]
    exact hst
  | succ fuel ih =>
    intro c depth st hst
    rw [collectDependencies]
    by_cases hproc : c.file.path ∈ st.processed
    · rw [if_pos hproc]
      exact hst
    · rw [if_neg hproc]
      refine foldlPreserves
        (fun st' : BuildState => ∀ s ∈ st'.snippets, ∀ d n b, s = Snippet.text d n b →
          b.length ≤ 3000 + truncMark.length) _ ?_ _ _ hst
      intro st2 depPath hP
      cases hfind : allComps.find? (fun k => k.path == depPath) with
      | none => simpa [hfind] using hP
      | some depComp =>
        by_cases hproc2 : depPath ∈ st2.processed
        · simpa [hfind, hproc2] using hP
        · simp only [hfind, hproc2, if_false]
          by_cases hsz : depComp.code.length < 8000
          · simp only [hsz, if_true]
            refine ih _ _ _ ?_
            intro s hs d n b hb
            rcases List.mem_append.mp hs with h1 | h2
            · exact hP s h1 d n b hb
            · rcases List.mem_singleton.mp h2 with rfl
              injection hb with hd hn hbody
              rw [← hbody]
              exact truncCode_length_le depComp.code
          · simp only [hsz, if_false]
            exact ih _ _ _ hP

/-- C2.  For every component candidate and candidate pool, the
`DependencyContext` returned by `buildDependencyContext` carries at most 8
source-carrying snippet entries (at most 9 list entries in total, the ninth
being the overflow-marker entry), and every snippet's included source text
is at most 3,000 characters plus the fixed trailing truncation marker. -/
theorem c2_dependency_context_caps (component : Comp) (allComps : List Comp) :
    (((buildDependencyContext component allComps 3).relatedFiles.filter
        Snippet.isText).length ≤ 8) ∧
    ((buildDependencyContext component allComps 3).relatedFiles.length ≤ 9) ∧
    (∀ s ∈ (buildDependencyContext component allComps 3).relatedFiles,
      ∀ d n b, s = Snippet.text d n b → b.length ≤ 3000 + truncMark.length) := by
  have hinv := collectDependencies_snippet_inv allComps 3
    ⟨component.file, component.deps⟩ 0 ⟨[], [], [], []⟩ (by intro s hs; simp at hs)
  unfold buildDependencyContext
  revert hinv
  generalize collectDependencies allComps 3 ⟨component.file, component.deps⟩ 0
    ⟨[], [], [], []⟩ = st
  intro hinv
  have htake : (st.snippets.take 8).length ≤ 8 := by
    rw [List.length_take]
    exact Nat.min_le_left _ _
  refine ⟨?_, ?_, ?_⟩
  · by_cases hlen : st.snippets.length > 8
    · simp only [hlen, if_true]
      rw [List.filter_append, List.length_append]
      have h2 : ((st.snippets.take 8).filter Snippet.isText).length ≤ 8 :=
        le_trans (List.length_filter_le _ _) htake
      have h3 : (([Snippet.overflow (st.snippets.length - 8)]).filter
          Snippet.isText).length = 0 := by
        simp [Snippet.isText]
      omega
    · simp only [hlen, if_false]
      exact le_trans (List.length_filter_le _ _) htake
  · by_cases hlen : st.snippets.length > 8
    · simp only [hlen, if_true]
      rw [List.length_append]
      have h3 : ([Snippet.overflow (st.snippets.length - 8)]).length = 1 := rfl
      omega
    · simp only [hlen, if_false]
      omega
  · intro s hs d n b hb
    by_cases hlen : st.snippets.length > 8
    · simp only [hlen, if_true] at hs
      rcases List.mem_append.mp hs with h1 | h2
      · exact hinv s (List.take_subset 8 _ h1) d n b hb
      · rcases List.mem_singleton.mp h2 with rfl
        simp at hb
    · simp only [hlen, if_false] at hs
      exact hinv s (List.take_subset 8 _ hs) d n b hb

/-! ## Claim C7 -/

/-- C7.  The run analyzes exactly the first 100 candidates (the single
excess notice fires precisely when candidates were dropped), and the batch
size computed from the analyzed count follows the spec's thresholds: 2 for
up to 10 candidates, 3 up to 30, 4 up to 60, and 5 beyond — also for lists
longer than 100, since the 100-cap keeps the sliced length above 60. -/
theorem c7_batch_size_and_cap {α : Type} (cands : List α) :
    componentsToAnalyze cands = cands.take 100 ∧
    (componentsToAnalyze cands).length ≤ 100 ∧
    (cands.length ≤ 10 → batchSizeFor cands = 2) ∧
    (10 < cands.length → cands.length ≤ 30 → batchSizeFor cands = 3) ∧
    (30 < cands.length → cands.length ≤ 60 → batchSizeFor cands = 4) ∧
    (60 < cands.length → batchSizeFor cands = 5) ∧
    (excessNotice cands = true ↔ 100 < cands.length) := by
  have hlen : (componentsToAnalyze cands).length = min 100 cands.length := by
    simp [componentsToAnalyze, maxComponents, List.length_take]
  refine ⟨rfl, by omega, ?_, ?_, ?_, ?_, ?_⟩
  · intro h
    simp only [batchSizeFor, calculateOptimalBatchSize, hlen]
    split_ifs <;> omega
  · intro h1 h2
    simp only [batchSizeFor, calculateOptimalBatchSize, hlen]
    split_ifs <;> omega
  · intro h1 h2
    simp only [batchSizeFor, calculateOptimalBatchSize, hlen]
    split_ifs <;> omega
  · intro h
    simp only [batchSizeFor, calculateOptimalBatchSize, hlen]
    split_ifs <;> omega
  · simp [excessNotice, maxComponents]

/-- C7, witness at the spec's own example sizes: 7 → 2, 45 → 4, 200 → first
100 analyzed with batch size 5 and the notice shown. -/
theorem c7_batch_size_and_cap_witness :
    batchSizeFor (List.range 7) = 2 ∧
    batchSizeFor (List.range 45) = 4 ∧
    batchSizeFor (List.range 200) = 5 ∧
    (componentsToAnalyze (List.range 200)).length = 100 ∧
    excessNotice (List.range 200) = true := by
  have h7 := c7_batch_size_and_cap (List.range 7)
  have h45 := c7_batch_size_and_cap (List.range 45)
  have h200 := c7_batch_size_and_cap (List.range 200)
  refine ⟨h7.2.2.1 (by simp), h45.2.2.2.2.1 (by simp) (by simp),
    h200.2.2.2.2.2.1 (by simp), ?_, h200.2.2.2.2.2.2.mpr (by simp)⟩
  have := h200.2.1
  have h1 : (componentsToAnalyze (List.range 200)).length = min 100 200 := by
    simp [componentsToAnalyze, maxComponents, List.length_take]
  omega

/-! ## Claim C8 -/

/-- An interrupt scheduled for any batch index actually reached makes the
run terminate with `process.exit(130)`. -/
theorem runBatches_interrupt_exits {α β : Type} (analyze : α → Option β)
    (k : Nat) :
    ∀ (bs : List (List α)) (idx : Nat) (acc : List β),
      idx ≤ k → k < idx + bs.length →
      runBatches analyze (some k) bs idx acc = RunOutcome.exited 130 := by
  intro bs
  induction bs with
  | nil =>
    intro idx acc h1 h2
    simp at h2
    omega
  | cons b rest ih =>
    intro idx acc h1 h2
    rw [runBatches]
    by_cases he : k = idx
    · rw [if_pos (by rw [he])]
    · rw [if_neg (by simpa using he)]
      refine ih (idx + 1) _ (by omega) ?_
      simp only [List.length_cons] at h2
      omega

/-- C8, code-bug evidence.  The claim says a cancellation mid-run still
returns the completed candidates of already-started batches.  In the code,
the `SIGINT`/`SIGTERM` handler — as soon as a batch has installed an
`AbortController` — sets the abort flag, aborts the controller, and then
calls `process.exit(130)`; the loop's own partial-result return

(`if (isAborted) break` … `return components`) is unreachable from the
signal path.  In the model: for every candidate list, analysis function and
interrupt delivered during any batch `k` that actually starts, the run ends
as `exited 130` — no result list, complete or partial, is ever returned. -/
theorem c8_interrupt_exits_without_results {α β : Type} (cands : List α)
    (analyze : α → Option β) (k : Nat)
    (hk : k < (chunksOf (batchSizeFor cands) (componentsToAnalyze cands)).length) :
    analyzeComponentsRun cands analyze (some k) = RunOutcome.exited 130 := by
  unfold analyzeComponentsRun
  exact runBatches_interrupt_exits analyze k _ 0 [] (Nat.zero_le k) (by omega)

/-- C8, witness: interrupting the second batch of a 7-candidate run (4
batches of size 2) exits with code 130 instead of returning the first
batch's completed results. -/
theorem c8_interrupt_exits_without_results_witness :
    analyzeComponentsRun [1, 2, 3, 4, 5, 6, 7] (fun n => some n) (some 1) =
      RunOutcome.exited 130 :=
  c8_interrupt_exits_without_results [1, 2, 3, 4, 5, 6, 7] (fun n => some n) 1
    (by decide)

/-! ## Claim C10 -/

/-- Membership in the dependency fold: every collected dependency comes
from a relative import specifier, resolved by appending the first matching
direct extension. -/
theorem analyzeDependencies_fold_mem (file : FileInfo) (allFiles : List FileInfo) :
    ∀ (l : List String) (acc : List String) (d : String),
      d ∈ l.foldl
        (fun deps imp =>
          if !strStartsWith imp "." then deps
          else
            match firstDirectExt (joinResolve (dirname file.path) imp) allFiles with
            | some e => deps ++ [joinResolve (dirname file.path) imp ++ e]
            | none => deps)
        acc →
      d ∈ acc ∨
        ∃ imp ∈ l, strStartsWith imp "." = true ∧
          ∃ e, firstDirectExt (joinResolve (dirname file.path) imp) allFiles = some e ∧
            d = joinResolve (dirname file.path) imp ++ e := by
  intro l
  induction l with
  | nil => intro acc d hd; exact Or.inl hd
  | cons imp rest ih =>
    intro acc d hd
    rw [List.foldl_cons] at hd
    rcases ih _ d hd with hacc | ⟨imp', hmem, hrest⟩
    · by_cases hdot : strStartsWith imp "."
      · cases hfe : firstDirectExt (joinResolve (dirname file.path) imp) allFiles with
        | none =>
          rw [show (if !strStartsWith imp "." then acc else _) = acc from by
            simp [hdot, hfe]] at hacc
          exact Or.inl hacc
        | some e =>
          rw [show (if !strStartsWith imp "." then acc else _) =
              acc ++ [joinResolve (dirname file.path) imp ++ e] from by
            simp [hdot, hfe]] at hacc
          rcases List.mem_append.mp hacc with h1 | h2
          · exact Or.inl h1
          · refine Or.inr ⟨imp, List.mem_cons_self _ _, hdot, e, hfe, ?_⟩
            simpa using h2
      · rw [show (if !strStartsWith imp "." then acc else _) = acc from by
          simp [hdot]] at hacc
        exact Or.inl hacc
    · exact Or.inr ⟨imp', List.mem_cons_of_mem imp hmem, hrest⟩

/-- If no import specifier yields a direct-extension hit, the fold collects
nothing. -/
theorem analyzeDependencies_fold_nil (file : FileInfo) (allFiles : List FileInfo) :
    ∀ (l : List String),
      (∀ imp ∈ l,
        firstDirectExt (joinResolve (dirname file.path) imp) allFiles = none) →
      l.foldl
        (fun deps imp =>
          if !strStartsWith imp "." then deps
          else
            match firstDirectExt (joinResolve (dirname file.path) imp) allFiles with
            | some e => deps ++ [joinResolve (dirname file.path) imp ++ e]
            | none => deps)
        [] = [] := by
  have main : ∀ (l : List String) (acc : List String),
      (∀ imp ∈ l,
        firstDirectExt (joinResolve (dirname file.path) imp) allFiles = none) →
      l.foldl
        (fun deps imp =>
          if !strStartsWith imp "." then deps
          else
            match firstDirectExt (joinResolve (dirname file.path) imp) allFiles with
            | some e => deps ++ [joinResolve (dirname file.path) imp ++ e]
            | none => deps)
        acc = acc := by
    intro l
    induction l with
    | nil => intro acc _; rfl
    | cons imp rest ih =>
      intro acc h
      rw [List.foldl_cons,
        show (if !strStartsWith imp "." then acc else _) = acc from by
          simp [h imp (List.mem_cons_self _ _)]]
      exact ih acc (fun i hi => h i (List.mem_cons_of_mem imp hi))
  intro l h
  exact main l [] h

/-- A predicate satisfied by some member makes `find?` succeed. -/
theorem find?_isSome_of_exists {α : Type} (p : α → Bool) :
    ∀ (l : List α), (∃ x ∈ l, p x = true) → (l.find? p).isSome := by
  intro l
  induction l with
  | nil => rintro ⟨x, hx, _⟩; simp at hx
  | cons a rest ih =>
    rintro ⟨x, hx, hpx⟩
    rcases List.mem_cons.mp hx with h1 | h2
    · rw [List.find?]
      rw [h1] at hpx
      rw [hpx]
      rfl
    · rw [List.find?]
      cases hpa : p a with
      | true => rfl
      | false => exact ih ⟨x, h2, hpx⟩

/-- C10.  `analyzeDependencies` returns only dependencies derived from a
relative (`.`-prefixed) import specifier, each resolved solely by appending
the first of `.ts .tsx .js .jsx` that names a scanned file; when no import
has such a direct-extension hit the result is empty — so a directory import
resolvable only as `dir/index.*` contributes nothing — whereas
`resolveFilePath`, the entry-file resolver, also tries the `/index.*`
variants and succeeds on such a path. -/
theorem c10_analyzeDependencies_direct_ext_only (file : FileInfo)
    (allFiles : List FileInfo) :
    (∀ d ∈ analyzeDependencies file allFiles,
      ∃ imp ∈ extractImports file.content,
        strStartsWith imp "." = true ∧
        ∃ e, firstDirectExt (joinResolve (dirname file.path) imp) allFiles = some e ∧
          d = joinResolve (dirname file.path) imp ++ e) ∧
    ((∀ imp ∈ extractImports file.content,
        firstDirectExt (joinResolve (dirname file.path) imp) allFiles = none) →
      analyzeDependencies file allFiles = []) ∧
    (∀ (rel p : String) (files2 : List FileInfo) (g : FileInfo),
      g ∈ files2 →
      g.path =
        joinResolve (dirname p)
          (if strStartsWith rel "./" then ⟨rel.data.drop 2⟩ else rel) ++ "/index.ts" →
      (resolveFilePath rel p files2).isSome = true) := by
  refine ⟨?_, ?_, ?_⟩
  · intro d hd
    rcases analyzeDependencies_fold_mem file allFiles
        (extractImports file.content) [] d (by simpa [analyzeDependencies] using hd)
      with h0 | h
    · simp at h0
    · exact h
  · intro h
    simpa [analyzeDependencies] using
      analyzeDependencies_fold_nil file allFiles (extractImports file.content) h
  · intro rel p files2 g hg hgp
    have hfind : (resolveExts.find? (fun e =>
        files2.any (fun f => f.path ==
          joinResolve (dirname p)
            (if strStartsWith rel "./" then ⟨rel.data.drop 2⟩ else rel) ++ e))).isSome := by
      refine find?_isSome_of_exists _ resolveExts ⟨"/index.ts", by simp [resolveExts], ?_⟩
      rw [List.any_eq_true]
      exact ⟨g, hg, by rw [beq_iff_eq, hgp]⟩
    obtain ⟨e, he⟩ := Option.isSome_iff_exists.mp hfind
    have hzeta : resolveFilePath rel p files2 =
        Option.map
          (fun e => joinResolve (dirname p)
            (if strStartsWith rel "./" then ⟨rel.data.drop 2⟩ else rel) ++ e)
          (resolveExts.find? (fun e =>
            files2.any (fun f => f.path ==
              joinResolve (dirname p)
                (if strStartsWith rel "./" then ⟨rel.data.drop 2⟩ else rel) ++ e))) := rfl
    rw [hzeta, he]
    rfl

/-- C10, witness: `/src/a.ts` importing `./sub` against an index holding
only `/src/sub/index.ts` yields no dependency from `analyzeDependencies`,
while `resolveFilePath` resolves the very same specifier. -/
theorem c10_analyzeDependencies_direct_ext_only_witness :
    analyzeDependencies ⟨"/src/a.ts", "import x from './sub'", []⟩
      [⟨"/src/a.ts", "import x from './sub'", []⟩,
       ⟨"/src/sub/index.ts", "export default 1", []⟩] = [] ∧
    (resolveFilePath "./sub" "/src/a.ts"
      [⟨"/src/a.ts", "import x from './sub'", []⟩,
       ⟨"/src/sub/index.ts", "export default 1", []⟩]).isSome = true := by
  have h := c10_analyzeDependencies_direct_ext_only
    ⟨"/src/a.ts", "import x from './sub'", []⟩
    [⟨"/src/a.ts", "import x from './sub'", []⟩,
     ⟨"/src/sub/index.ts", "export default 1", []⟩]
  exact ⟨h.2.1 (by decide),
    h.2.2 "./sub" "/src/a.ts"
      [⟨"/src/a.ts", "import x from './sub'", []⟩,
       ⟨"/src/sub/index.ts", "export default 1", []⟩]
      ⟨"/src/sub/index.ts", "export default 1", []⟩ (by decide) (by decide)⟩
